import Mathlib

/-!
# filecrypt: a shallow embedding of the streaming AES-256-GCM file codec

The development follows `src/pbkdf2.cpp` and `src/filecrypt.cpp`.

* The OpenSSL primitives (`PKCS5_PBKDF2_HMAC`, the `EVP_*` cipher calls) are
  external to the repository; they appear as the fields of `Kdf` and `Aead`
  and the properties expected of them are stated as explicit predicates.
* `datatypes.h` is not part of the sources at hand: `array256_t` and
  `array128_t` are the 32 and 16 byte arrays the data model describes, and the
  element count of `buffer_t` is the parameter `bufsize`.  The source keeps
  the count returned by `read` in an `int` (`bytes_read`); the loops here keep
  it as a natural number, which is the same for every buffer size below
  `2 ^ 31`.  Statements that range over buffer sizes carry that bound.
* The file named by `srcpath` and the file named by `dstpath` are the two
  slots of `World`; they are taken to be different files.
* Loops take a fuel argument; `none` means that the fuel ran out.
-/

namespace filecrypt

/-- One octet, the `uint8_t` of the sources. -/
abbrev Byte := Fin 256

/-- Storing bytes at the start of a `std::array` of `n` elements: the first
`new.length` elements are overwritten, the others keep their old value. -/
def arrayStore (n : Nat) (old new : List Byte) : List Byte :=
  (new ++ old.drop new.length).take n

/-- `size_t` subtraction (64 bit, wrapping). -/
def subSize (a b : Nat) : Nat :=
  (a + 2 ^ 64 - b % 2 ^ 64) % 2 ^ 64

/-! ## pbkdf2.cpp -/

/-- Message digests selectable for the key derivation; the code uses `EVP_sha256()`. -/
inductive Md
  | sha256
  deriving DecidableEq, Repr

/-- The external primitive `PKCS5_PBKDF2_HMAC(pass, salt, iter, md, keylen, out)`;
the result is the content written to `out`. -/
structure Kdf where
  pbkdf2_hmac : List Byte → List Byte → Nat → Md → Nat → List Byte

/-- The primitive fills exactly the number of bytes it is asked for. -/
def Kdf.FillsRequest (K : Kdf) : Prop :=
  ∀ pass salt iter md keylen, (K.pbkdf2_hmac pass salt iter md keylen).length = keylen

/-- Class `Pbkdf2`: its only member is the iteration count. -/
structure Pbkdf2 where
  iterations : Nat
  deriving DecidableEq, Repr

/-- Constructor `Pbkdf2::Pbkdf2()`. -/
def Pbkdf2.new : Pbkdf2 := ⟨2020⟩

/-- Method `Pbkdf2::derive`: `derived` is a zero-initialised vector of
`key.size() + iv.size() = 48` bytes handed to the primitive, then split. -/
def Pbkdf2.derive (K : Kdf) (self : Pbkdf2) (passphrase salt : List Byte) :
    List Byte × List Byte :=
  let derived := arrayStore 48 (List.replicate 48 0)
    (K.pbkdf2_hmac passphrase salt self.iterations Md.sha256 48)
  (derived.take 32, derived.drop 32)

/-! ## The AEAD primitive -/

/-- The external `EVP` cipher interface as used by `filecrypt.cpp`, with
`EVP_aes_256_gcm()` as the cipher.  `encrypt_init`/`decrypt_init` stand for the
three calls of `create_enc_ctx`/`create_dec_ctx` (cipher, IV length, key and
IV); the `aad` functions are the `Update` calls with a null output buffer;
`update` returns the new context and the `len` bytes stored in the output
buffer; `decrypt_final` also returns the `int` result of
`EVP_DecryptFinal_ex`. -/
structure Aead where
  Ctx : Type
  ctx_new : Ctx
  encrypt_init : Ctx → List Byte → List Byte → Ctx
  encrypt_aad : Ctx → List Byte → Ctx
  encrypt_update : Ctx → List Byte → Ctx × List Byte
  encrypt_final : Ctx → Ctx × List Byte
  get_tag : Ctx → List Byte
  decrypt_init : Ctx → List Byte → List Byte → Ctx
  decrypt_aad : Ctx → List Byte → Ctx
  decrypt_update : Ctx → List Byte → Ctx × List Byte
  set_tag : Ctx → List Byte → Ctx
  decrypt_final : Ctx → Ctx × Int × List Byte

/-! ## Files and streams -/

/-- The environment of one codec object: the file at `srcpath` (`none` when
it cannot be opened for reading), the file at `dstpath`, whether that file
can be created, and the bytes `std::random_device`/`std::mt19937` will
deliver (`drawn` of them are used up). -/
structure World where
  src : Option (List Byte)
  dst : List Byte
  dst_creatable : Bool
  random : Nat → Byte
  drawn : Nat

/-- State of the `std::ifstream` member. -/
structure Ifstream where
  is_open : Bool
  good : Bool
  pos : Nat
  deriving DecidableEq, Repr

/-- State of the `std::ofstream` member. -/
structure Ofstream where
  is_open : Bool
  good : Bool
  deriving DecidableEq, Repr

/-- What the caller of `encrypt()`/`decrypt()` can catch. -/
inductive Error
  | file_open_failed
  | file_creation_failed
  | passphrase_mismatch
  | tag_mismatch
  deriving DecidableEq, Repr

/-- How a call ended: normal return, or a thrown message. -/
inductive Outcome
  | ok
  | threw (e : Error)
  deriving DecidableEq, Repr

/-- The data members of class `FileCrypt` (the two paths are fixed by the
`World`; `ibuf`/`obuf` only carry data between two adjacent calls). -/
structure FileCrypt (Ctx : Type) where
  msglen : Nat
  passphrase : List Byte
  ifs : Ifstream
  ofs : Ofstream
  salt : List Byte
  key : List Byte
  iv : List Byte
  tag : List Byte
  verified : Int
  ctx : Ctx

/-- Indeterminate initial values of the members the constructor does not set. -/
structure Uninit where
  msglen : Nat
  salt : List Byte
  key : List Byte
  iv : List Byte
  tag : List Byte

/-- Constructor `FileCrypt::FileCrypt(passphrase, srcpath, dstpath)`: sets
`verified(1)` and allocates the cipher context; streams are default
constructed (closed, good); the arrays hold indeterminate bytes. -/
def FileCrypt.new (A : Aead) (u : Uninit) (passphrase : List Byte) : FileCrypt A.Ctx :=
  { msglen := u.msglen % 2 ^ 64
    passphrase := passphrase
    ifs := ⟨false, true, 0⟩
    ofs := ⟨false, true⟩
    salt := arrayStore 32 (List.replicate 32 0) u.salt
    key := arrayStore 32 (List.replicate 32 0) u.key
    iv := arrayStore 16 (List.replicate 16 0) u.iv
    tag := arrayStore 16 (List.replicate 16 0) u.tag
    verified := 1
    ctx := A.ctx_new }

/-- Copy constructor: delegates to the main constructor with the other
object's passphrase and paths. -/
def FileCrypt.copy (A : Aead) (u : Uninit) (other : FileCrypt A.Ctx) : FileCrypt A.Ctx :=
  FileCrypt.new A u other.passphrase

/-- Function `get_file_size`: seek to the end, `tellg`, seek back. -/
def get_file_size (w : World) (is : Ifstream) : Nat × Ifstream :=
  ((w.src.getD []).length % 2 ^ 64, { is with pos := 0 })

/-- Function `get_random_bytes(count)`. -/
def get_random_bytes (count : Nat) (w : World) : List Byte × World :=
  ((List.range count).map (fun i => w.random (w.drawn + i)),
   { w with drawn := w.drawn + count })

section Methods

variable {Ctx : Type}

/-- Method `read(data, count)`: `ifs.read(..., count).gcount()`.  On a stream
that is not good nothing is extracted; a short read sets eofbit and failbit. -/
def FileCrypt.read (c : FileCrypt Ctx) (w : World) (count : Nat) :
    List Byte × FileCrypt Ctx :=
  if c.ifs.is_open && c.ifs.good then
    let data := ((w.src.getD []).drop c.ifs.pos).take count
    (data, { c with ifs := { c.ifs with pos := c.ifs.pos + data.length,
                                        good := decide (data.length = count) } })
  else
    ([], { c with ifs := { c.ifs with good := false } })

/-- Method `write(data, count)`: `ofs.write(...)`. -/
def FileCrypt.write (c : FileCrypt Ctx) (w : World) (data : List Byte) :
    FileCrypt Ctx × World :=
  if c.ofs.is_open && c.ofs.good then
    (c, { w with dst := w.dst ++ data })
  else
    ({ c with ofs := { c.ofs with good := false } }, w)

/-- Method `FileCrypt::open`. -/
def FileCrypt.open (c : FileCrypt Ctx) (w : World) : Outcome × FileCrypt Ctx × World :=
  -- ifs.open(srcpath, binary)
  let ifs : Ifstream :=
    if c.ifs.is_open then { c.ifs with good := false }
    else match w.src with
      | some _ => ⟨true, true, 0⟩
      | none => { c.ifs with good := false }
  -- ofs.open(dstpath, binary): creates or truncates the file
  let ow : Ofstream × World :=
    if c.ofs.is_open then ({ c.ofs with good := false }, w)
    else if w.dst_creatable then (⟨true, true⟩, { w with dst := [] })
    else ({ c.ofs with good := false }, w)
  let c1 : FileCrypt Ctx := { c with ifs := ifs, ofs := ow.1 }
  if ifs.good = false then (Outcome.threw Error.file_open_failed, c1, ow.2)
  else if ow.1.good = false then (Outcome.threw Error.file_creation_failed, c1, ow.2)
  else
    let r := get_file_size ow.2 ifs
    (Outcome.ok, { c1 with msglen := r.1, ifs := r.2 }, ow.2)

/-- Method `FileCrypt::close`. -/
def FileCrypt.close (c : FileCrypt Ctx) (w : World) : Outcome × FileCrypt Ctx × World :=
  let c1 : FileCrypt Ctx :=
    { c with ofs := ⟨false, c.ofs.good && c.ofs.is_open⟩,
             ifs := ⟨false, c.ifs.good && c.ifs.is_open, c.ifs.pos⟩ }
  if c1.verified = 0 then
    -- ofs.open(dstpath, out | trunc); ofs.close(); throw
    if w.dst_creatable then
      (Outcome.threw Error.tag_mismatch, { c1 with ofs := ⟨false, true⟩ }, { w with dst := [] })
    else
      (Outcome.threw Error.tag_mismatch, { c1 with ofs := ⟨false, false⟩ }, w)
  else (Outcome.ok, c1, w)

/-- Method `FileCrypt::init_encrypt`. -/
def FileCrypt.init_encrypt (K : Kdf) (c : FileCrypt Ctx) (w : World) :
    FileCrypt Ctx × World :=
  let s := get_random_bytes 32 w
  let salt := arrayStore 32 c.salt s.1
  let pair := Pbkdf2.new.derive K c.passphrase salt
  let c1 : FileCrypt Ctx := { c with salt := salt, key := pair.1, iv := pair.2 }
  let r := c1.write s.2 c1.salt
  r.1.write r.2 r.1.iv

/-- Method `FileCrypt::init_decrypt`; a thrown message leaves the object as
it is at that point. -/
def FileCrypt.init_decrypt (K : Kdf) (c : FileCrypt Ctx) (w : World) :
    Outcome × FileCrypt Ctx :=
  let c1 : FileCrypt Ctx := { c with msglen := subSize c.msglen (32 + 16 + 16) }
  let r1 := c1.read w 32
  let c2 : FileCrypt Ctx := { r1.2 with salt := arrayStore 32 r1.2.salt r1.1 }
  let r2 := c2.read w 16
  let c3 : FileCrypt Ctx := { r2.2 with iv := arrayStore 16 r2.2.iv r2.1 }
  let pair := Pbkdf2.new.derive K c3.passphrase c3.salt
  let c4 : FileCrypt Ctx := { c3 with key := pair.1 }
  if c4.iv = pair.2 then (Outcome.ok, c4) else (Outcome.threw Error.passphrase_mismatch, c4)

end Methods

/-- Method `FileCrypt::create_enc_ctx`. -/
def FileCrypt.create_enc_ctx (A : Aead) (c : FileCrypt A.Ctx) : FileCrypt A.Ctx :=
  { c with ctx := A.encrypt_init c.ctx c.key c.iv }

/-- Method `FileCrypt::create_dec_ctx`. -/
def FileCrypt.create_dec_ctx (A : Aead) (c : FileCrypt A.Ctx) : FileCrypt A.Ctx :=
  { c with ctx := A.decrypt_init c.ctx c.key c.iv }

/-- The loop `while ((bytes_read = read(ibuf)) > 0)` of `process_encrypt`.
The count `bytes_read`, an `int` in the source, is the length of the chunk
read; the two agree for `bufsize < 2 ^ 31`. -/
def FileCrypt.encrypt_loop (A : Aead) (bufsize : Nat) :
    Nat → FileCrypt A.Ctx → World → Option (FileCrypt A.Ctx × World)
  | 0, _, _ => none
  | fuel + 1, c, w =>
    let r := c.read w bufsize
    if 0 < r.1.length then
      let u := A.encrypt_update r.2.ctx r.1
      let cw := FileCrypt.write { r.2 with ctx := u.1 } w u.2
      FileCrypt.encrypt_loop A bufsize fuel cw.1 cw.2
    else some (r.2, w)

/-- Method `FileCrypt::process_encrypt`. -/
def FileCrypt.process_encrypt (A : Aead) (bufsize fuel : Nat) (c : FileCrypt A.Ctx)
    (w : World) : Option (FileCrypt A.Ctx × World) :=
  let c1 : FileCrypt A.Ctx := { c with ctx := A.encrypt_aad c.ctx c.salt }
  let c2 : FileCrypt A.Ctx := { c1 with ctx := A.encrypt_aad c1.ctx c1.iv }
  match FileCrypt.encrypt_loop A bufsize fuel c2 w with
  | none => none
  | some (c3, w3) =>
    let f := A.encrypt_final c3.ctx
    let cw := FileCrypt.write { c3 with ctx := f.1 } w3 f.2
    let c5 : FileCrypt A.Ctx := { cw.1 with tag := arrayStore 16 cw.1.tag (A.get_tag cw.1.ctx) }
    some (c5.write cw.2 c5.tag)

/-- Method `FileCrypt::encrypt`. -/
def FileCrypt.encrypt (A : Aead) (K : Kdf) (bufsize fuel : Nat) (c : FileCrypt A.Ctx)
    (w : World) : Option (Outcome × FileCrypt A.Ctx × World) :=
  match c.open w with
  | (Outcome.threw e, c1, w1) => some (Outcome.threw e, c1, w1)
  | (Outcome.ok, c1, w1) =>
    let cw := c1.init_encrypt K w1
    let c3 := FileCrypt.create_enc_ctx A cw.1
    match FileCrypt.process_encrypt A bufsize fuel c3 cw.2 with
    | none => none
    | some (c4, w4) => some (c4.close w4)

/-- The loop `while (msglen > 0)` of `process_decrypt`.  The count
`bytes_read`, an `int` in the source, is the length of the chunk read; the
two agree for `bufsize < 2 ^ 31`. -/
def FileCrypt.decrypt_loop (A : Aead) (bufsize : Nat) :
    Nat → FileCrypt A.Ctx → World → Option (FileCrypt A.Ctx × World)
  | 0, _, _ => none
  | fuel + 1, c, w =>
    if 0 < c.msglen then
      let chunksize := min c.msglen bufsize
      let r := c.read w chunksize
      let u := A.decrypt_update r.2.ctx r.1
      let cw := FileCrypt.write { r.2 with ctx := u.1 } w u.2
      FileCrypt.decrypt_loop A bufsize fuel
        { cw.1 with msglen := subSize cw.1.msglen r.1.length } cw.2
    else some (c, w)

/-- Method `FileCrypt::process_decrypt`.  The bytes written after
`EVP_DecryptFinal_ex` are the ones the primitive reports. -/
def FileCrypt.process_decrypt (A : Aead) (bufsize fuel : Nat) (c : FileCrypt A.Ctx)
    (w : World) : Option (FileCrypt A.Ctx × World) :=
  let c1 : FileCrypt A.Ctx := { c with ctx := A.decrypt_aad c.ctx c.salt }
  let c2 : FileCrypt A.Ctx := { c1 with ctx := A.decrypt_aad c1.ctx c1.iv }
  match FileCrypt.decrypt_loop A bufsize fuel c2 w with
  | none => none
  | some (c3, w3) =>
    let r := c3.read w3 16
    let c4 : FileCrypt A.Ctx := { r.2 with tag := arrayStore 16 r.2.tag r.1 }
    let c5 : FileCrypt A.Ctx := { c4 with ctx := A.set_tag c4.ctx c4.tag }
    let f := A.decrypt_final c5.ctx
    let c6 : FileCrypt A.Ctx := { c5 with verified := f.2.1, ctx := f.1 }
    some (c6.write w3 f.2.2)

/-- Method `FileCrypt::decrypt`. -/
def FileCrypt.decrypt (A : Aead) (K : Kdf) (bufsize fuel : Nat) (c : FileCrypt A.Ctx)
    (w : World) : Option (Outcome × FileCrypt A.Ctx × World) :=
  match c.open w with
  | (Outcome.threw e, c1, w1) => some (Outcome.threw e, c1, w1)
  | (Outcome.ok, c1, w1) =>
    match c1.init_decrypt K w1 with
    | (Outcome.threw e, c2) => some (Outcome.threw e, c2, w1)
    | (Outcome.ok, c2) =>
      let c3 := FileCrypt.create_dec_ctx A c2
      match FileCrypt.process_decrypt A bufsize fuel c3 w1 with
      | none => none
      | some (c4, w4) => some (c4.close w4)

/-! ## One-shot reference operations and the properties expected of the primitives -/

/-- One-shot authenticated encryption with the primitive: initialise, feed
the associated data pieces, encrypt the whole plaintext with one `update`,
finalise, fetch the tag.  Returns ciphertext and tag. -/
def Aead.seal (A : Aead) (c0 : A.Ctx) (key iv : List Byte) (aads : List (List Byte))
    (P : List Byte) : List Byte × List Byte :=
  let s0 := aads.foldl A.encrypt_aad (A.encrypt_init c0 key iv)
  let u := A.encrypt_update s0 P
  let f := A.encrypt_final u.1
  (u.2 ++ f.2, A.get_tag f.1)

/-- One-shot authenticated decryption: returns the result of the final
verification and the plaintext. -/
def Aead.unseal (A : Aead) (c0 : A.Ctx) (key iv : List Byte) (aads : List (List Byte))
    (C T : List Byte) : Int × List Byte :=
  let s0 := aads.foldl A.decrypt_aad (A.decrypt_init c0 key iv)
  let u := A.decrypt_update s0 C
  let f := A.decrypt_final (A.set_tag u.1 T)
  (f.2.1, u.2 ++ f.2.2)

/-- The `update` calls are compatible with concatenation: an empty input is a
no-op and feeding `x ++ y` is feeding `x`, then `y`. -/
structure Aead.Streaming (A : Aead) : Prop where
  enc_nil : ∀ s, A.encrypt_update s [] = (s, [])
  enc_append : ∀ s x y, A.encrypt_update s (x ++ y) =
    ((A.encrypt_update (A.encrypt_update s x).1 y).1,
     (A.encrypt_update s x).2 ++ (A.encrypt_update (A.encrypt_update s x).1 y).2)
  dec_nil : ∀ s, A.decrypt_update s [] = (s, [])
  dec_append : ∀ s x y, A.decrypt_update s (x ++ y) =
    ((A.decrypt_update (A.decrypt_update s x).1 y).1,
     (A.decrypt_update s x).2 ++ (A.decrypt_update (A.decrypt_update s x).1 y).2)

/-- Sizes of what the cipher emits in GCM mode: `EVP_EncryptUpdate` emits as
many bytes as it is given, `EVP_EncryptFinal_ex` emits none, the tag has 16
bytes. -/
structure Aead.Sized (A : Aead) : Prop where
  update_length : ∀ s x, (A.encrypt_update s x).2.length = x.length
  final_nil : ∀ s, (A.encrypt_final s).2 = []
  tag_length : ∀ s, (A.get_tag s).length = 16

/-- Associated data may be supplied in pieces. -/
def Aead.AadStreaming (A : Aead) : Prop :=
  ∀ s x y, A.encrypt_aad (A.encrypt_aad s x) y = A.encrypt_aad s (x ++ y)

/-- Correctness law of the AEAD: decrypting under the same key, nonce and
associated data inverts encryption, and the tag verifies (result 1). -/
def Aead.Correct (A : Aead) : Prop :=
  ∀ (c0 c1 : A.Ctx) (key iv : List Byte) (aads : List (List Byte)) (P : List Byte),
    A.unseal c1 key iv aads (A.seal c0 key iv aads P).1 (A.seal c0 key iv aads P).2 = (1, P)

/-- Flip bit `j` of a byte. -/
def flipBit (x : Byte) (j : Fin 8) : Byte :=
  ⟨(x.val ^^^ 2 ^ j.val) % 256, Nat.mod_lt _ (by decide)⟩

/-- Flip bit `j` of the byte at index `i`. -/
def flipBitAt : List Byte → Nat → Fin 8 → List Byte
  | [], _, _ => []
  | x :: xs, 0, j => flipBit x j :: xs
  | x :: xs, i + 1, j => x :: flipBitAt xs i j

/-- Integrity law of the AEAD for single bit flips: a sealed message with one
bit of the ciphertext or one bit of the tag flipped does not verify. -/
def Aead.RejectsBitFlips (A : Aead) : Prop :=
  ∀ (c0 c1 : A.Ctx) (key iv : List Byte) (aads : List (List Byte)) (P : List Byte)
    (i : Nat) (j : Fin 8),
    (i < (A.seal c0 key iv aads P).1.length →
      (A.unseal c1 key iv aads (flipBitAt (A.seal c0 key iv aads P).1 i j)
        (A.seal c0 key iv aads P).2).1 = 0) ∧
    (i < 16 →
      (A.unseal c1 key iv aads (A.seal c0 key iv aads P).1
        (flipBitAt (A.seal c0 key iv aads P).2 i j)).1 = 0)

/-- The object as `init_decrypt` leaves it after `open()` succeeded on a
source `F` of at least 48 bytes (stated here to be compared with the code
in `decrypt_header`): the header fields are loaded, the key is derived,
`msglen` is the file size minus 64 in `size_t` arithmetic. -/
def FileCrypt.afterHeader {Ctx : Type} (K : Kdf) (c : FileCrypt Ctx) (F : List Byte) :
    FileCrypt Ctx :=
  { msglen := subSize (F.length % 2 ^ 64) 64
    passphrase := c.passphrase
    ifs := ⟨true, true, 48⟩
    ofs := ⟨true, true⟩
    salt := F.take 32
    key := (Pbkdf2.new.derive K c.passphrase (F.take 32)).1
    iv := (F.drop 32).take 16
    tag := c.tag
    verified := c.verified
    ctx := c.ctx }

/-- The salt the next `encrypt()` draws in world `w`. -/
def World.salt (w : World) : List Byte := (get_random_bytes 32 w).1

/-- The key derived from passphrase and salt. -/
def keyOf (K : Kdf) (S salt : List Byte) : List Byte := (Pbkdf2.new.derive K S salt).1

/-- The nonce derived from passphrase and salt. -/
def nonceOf (K : Kdf) (S salt : List Byte) : List Byte := (Pbkdf2.new.derive K S salt).2

/-- The file format as the specification words it: salt, nonce, ciphertext
and tag in this order, where key and nonce are derived from passphrase and
salt and ciphertext and tag are the one-shot AEAD output for the plaintext
with associated data salt ‖ nonce.  (Written from the specification, to be
compared with what `FileCrypt.encrypt` writes.) -/
def fileFormat (A : Aead) (K : Kdf) (S salt P : List Byte) : List Byte :=
  salt ++ nonceOf K S salt ++
    (A.seal A.ctx_new (keyOf K S salt) (nonceOf K S salt) [salt ++ nonceOf K S salt] P).1 ++
    (A.seal A.ctx_new (keyOf K S salt) (nonceOf K S salt) [salt ++ nonceOf K S salt] P).2

/-- The bytes `encrypt()` produces when the associated data is fed as the
code feeds it, salt and nonce in two calls. -/
def sealedFile (A : Aead) (K : Kdf) (S salt P : List Byte) : List Byte :=
  salt ++ nonceOf K S salt ++
    (A.seal A.ctx_new (keyOf K S salt) (nonceOf K S salt) [salt, nonceOf K S salt] P).1 ++
    (A.seal A.ctx_new (keyOf K S salt) (nonceOf K S salt) [salt, nonceOf K S salt] P).2

/-! ## Small executable stand-ins for the primitives

They satisfy the properties above and serve to run the model on concrete
files; they make no claim to security. -/

/-- Context of the stand-in cipher: a key byte, a running checksum of
associated data and ciphertext, and the tag to compare with. -/
structure ToyCtx where
  k : Byte
  acc : Byte
  expect : List Byte
  deriving DecidableEq, Repr

/-- The tag of the stand-in cipher: the checksum followed by 15 key bytes. -/
def toyTag (s : ToyCtx) : List Byte := s.acc :: List.replicate 15 s.k

/-- A stand-in cipher: every byte is shifted by a key byte, the tag
authenticates the sum of associated data and ciphertext. -/
def toyAead : Aead where
  Ctx := ToyCtx
  ctx_new := ⟨0, 0, []⟩
  encrypt_init := fun _ key iv => ⟨key.sum + iv.sum + 1, 0, []⟩
  encrypt_aad := fun s a => { s with acc := s.acc + a.sum }
  encrypt_update := fun s x =>
    ({ s with acc := s.acc + (x.map (fun v => v + s.k)).sum }, x.map (fun v => v + s.k))
  encrypt_final := fun s => (s, [])
  get_tag := toyTag
  decrypt_init := fun _ key iv => ⟨key.sum + iv.sum + 1, 0, []⟩
  decrypt_aad := fun s a => { s with acc := s.acc + a.sum }
  decrypt_update := fun s y => ({ s with acc := s.acc + y.sum }, y.map (fun v => v - s.k))
  set_tag := fun s t => { s with expect := t }
  decrypt_final := fun s => (s, if s.expect = toyTag s then 1 else 0, [])

/-- A stand-in key derivation: byte `i` of the output is the sum of the
passphrase bytes, the salt bytes, the iteration count and `i`. -/
def toyKdf : Kdf where
  pbkdf2_hmac := fun pass salt iter _ keylen =>
    (List.range keylen).map (fun i => pass.sum + salt.sum + Fin.ofNat iter + Fin.ofNat i)

/-- A stand-in random source: byte `i` is `7 * i + 3`. -/
def toyRandom (i : Nat) : Byte := Fin.ofNat (7 * i + 3)

/-- Indeterminate members all zero. -/
def zeroUninit : Uninit := ⟨0, [], [], [], []⟩

/-- A world with the given source file, an empty destination and the
stand-in random source. -/
def toyWorld (F : List Byte) : World := ⟨some F, [], true, toyRandom, 0⟩

/-- The file the stand-in primitives produce for passphrase `[1, 2]` and
plaintext `[10, 20, 30, 40, 50]` in `toyWorld`: 32 salt bytes, 16 nonce
bytes, 5 ciphertext bytes, 16 tag bytes. -/
def toyFile : List Byte :=
  [3, 10, 17, 24, 31, 38, 45, 52, 59, 66, 73, 80, 87, 94, 101, 108, 115, 122, 129, 136,
   143, 150, 157, 164, 171, 178, 185, 192, 199, 206, 213, 220,
   247, 248, 249, 250, 251, 252, 253, 254, 255, 0, 1, 2, 3, 4, 5, 6,
   195, 205, 215, 225, 235,
   11, 185, 185, 185, 185, 185, 185, 185, 185, 185, 185, 185, 185, 185, 185, 185]

/-- Outcome and destination content of a finished call. -/
def observe {Ctx : Type} (r : Option (Outcome × FileCrypt Ctx × World)) :
    Option (Outcome × List Byte) :=
  r.map (fun x => (x.1, x.2.2.dst))

/-! ## Feeding a stream to the primitive in chunks -/

/-- `Fed upd b s xs t out`: starting from context `s`, the bytes `xs` were
handed to `upd` in non-empty chunks of at most `b` bytes, in order, ending in
context `t` with the outputs concatenated to `out`. -/
inductive Fed {Ctx : Type} (upd : Ctx → List Byte → Ctx × List Byte) (b : Nat) :
    Ctx → List Byte → Ctx → List Byte → Prop
  | done (s : Ctx) : Fed upd b s [] s []
  | chunk (s : Ctx) (ch rest : List Byte) (t : Ctx) (out : List Byte) :
      ch ≠ [] → ch.length ≤ b → Fed upd b (upd s ch).1 rest t out →
      Fed upd b s (ch ++ rest) t ((upd s ch).2 ++ out)

/-! ## Basic facts -/

theorem arrayStore_full (n : Nat) (old new : List Byte) (h : new.length = n) :
    arrayStore n old new = new := by
  unfold arrayStore
  rw [List.take_append_eq_append_take, h]
  simp [← h]

theorem length_arrayStore (n : Nat) (old new : List Byte) (h : old.length = n) :
    (arrayStore n old new).length = n := by
  unfold arrayStore
  simp only [List.length_take, List.length_append, List.length_drop]
  omega

theorem subSize_of_le (a b : Nat) (hb : b ≤ a) (ha : a < 2 ^ 64) : subSize a b = a - b := by
  unfold subSize
  have h1 : b % 2 ^ 64 = b := Nat.mod_eq_of_lt (by omega)
  rw [h1]
  have h2 : a + 2 ^ 64 - b = (a - b) + 2 ^ 64 := by omega
  rw [h2, Nat.add_mod_right]
  exact Nat.mod_eq_of_lt (by omega)

theorem length_get_random_bytes (count : Nat) (w : World) :
    (get_random_bytes count w).1.length = count := by
  simp [get_random_bytes]

theorem derive_key_length (K : Kdf) (p : Pbkdf2) (pass salt : List Byte) :
    (p.derive K pass salt).1.length = 32 := by
  simp [Pbkdf2.derive, length_arrayStore]

theorem derive_iv_length (K : Kdf) (p : Pbkdf2) (pass salt : List Byte) :
    (p.derive K pass salt).2.length = 16 := by
  simp [Pbkdf2.derive, length_arrayStore]

/-! ## The streaming loops -/

theorem read_good {Ctx : Type} (c : FileCrypt Ctx) (w : World) (F : List Byte) (count p : Nat)
    (hsrc : w.src = some F) (hifs : c.ifs = ⟨true, true, p⟩) :
    c.read w count =
      ((F.drop p).take count,
       { c with ifs := ⟨true, decide (((F.drop p).take count).length = count),
                        p + ((F.drop p).take count).length⟩ }) := by
  simp [FileCrypt.read, hsrc, hifs]

/-- The encrypt loop hands the rest of the source to `EVP_EncryptUpdate` in
chunks and appends every output to the destination. -/
theorem encrypt_loop_spec (A : Aead) (b : Nat) (hb : 0 < b) (F : List Byte) :
    ∀ (fuel : Nat) (c : FileCrypt A.Ctx) (w : World) (g : Bool) (p : Nat),
      w.src = some F → c.ifs = ⟨true, g, p⟩ → p ≤ F.length → (g = false → p = F.length) →
      c.ofs = ⟨true, true⟩ → F.length - p < fuel →
      ∃ t out, Fed A.encrypt_update b c.ctx (F.drop p) t out ∧
        FileCrypt.encrypt_loop A b fuel c w =
          some ({ c with ifs := ⟨true, false, F.length⟩, ctx := t },
                { w with dst := w.dst ++ out }) := by
  intro fuel
  induction fuel with
  | zero => intro c w g p _ _ _ _ _ h; omega
  | succ fuel ih =>
    intro c w g p hsrc hifs hp hg hofs hfuel
    cases g with
    | false =>
      have hpF : p = F.length := hg rfl
      refine ⟨c.ctx, [], ?_, ?_⟩
      · rw [hpF, List.drop_length]; exact Fed.done _
      · simp [FileCrypt.encrypt_loop, FileCrypt.read, hifs, hpF]
    | true =>
      by_cases hnil : (F.drop p).take b = []
      · have hpF : p = F.length := by
          have h1 : ((F.drop p).take b).length = 0 := by rw [hnil]; rfl
          simp only [List.length_take, List.length_drop] at h1
          omega
        refine ⟨c.ctx, [], ?_, ?_⟩
        · rw [hpF, List.drop_length]; exact Fed.done _
        · have hb0 : ¬ (0 = b) := by omega
          simp [FileCrypt.encrypt_loop, read_good c w F b p hsrc hifs, hnil, hpF, hb0]
      · have hlen : 0 < ((F.drop p).take b).length := List.length_pos.mpr hnil
        have hle : ((F.drop p).take b).length ≤ b := by simp
        have hle2 : p + ((F.drop p).take b).length ≤ F.length := by
          simp only [List.length_take, List.length_drop]; omega
        have hr := read_good c w F b p hsrc hifs
        obtain ⟨t, out, hfed, hrun⟩ := ih
          { c with ifs := ⟨true, decide (((F.drop p).take b).length = b),
                           p + ((F.drop p).take b).length⟩,
                   ctx := (A.encrypt_update c.ctx ((F.drop p).take b)).1 }
          { w with dst := w.dst ++ (A.encrypt_update c.ctx ((F.drop p).take b)).2 }
          (decide (((F.drop p).take b).length = b)) (p + ((F.drop p).take b).length)
          hsrc rfl hle2
          (by
            intro hd
            simp only [decide_eq_false_iff_not, List.length_take, List.length_drop] at hd
            simp only [List.length_take, List.length_drop]
            omega)
          hofs (by omega)
        refine ⟨t, (A.encrypt_update c.ctx ((F.drop p).take b)).2 ++ out, ?_, ?_⟩
        · have hsplit : F.drop p = (F.drop p).take b ++ F.drop (p + ((F.drop p).take b).length) := by
            have h1 : ((F.drop p).take b).length = min b (F.length - p) := by simp
            have h2 : (F.drop p).drop b = F.drop (p + ((F.drop p).take b).length) := by
              rw [List.drop_drop, h1]
              by_cases hc : b ≤ F.length - p
              · rw [Nat.min_eq_left hc, Nat.add_comm]
              · rw [Nat.min_eq_right (by omega)]
                rw [List.drop_eq_nil_of_le (by omega), List.drop_eq_nil_of_le (by omega)]
            rw [← h2, List.take_append_drop]
          have := @Fed.chunk _ A.encrypt_update b c.ctx ((F.drop p).take b)
            (F.drop (p + ((F.drop p).take b).length)) t out hnil hle hfed
          rw [← hsplit] at this
          exact this
        · rw [FileCrypt.encrypt_loop]
          simp only [hr, hlen, if_true, FileCrypt.write, hofs, Bool.and_self]
          simp only [hofs] at hrun
          rw [hrun]
          simp only [List.append_assoc]

/-- With at least `msglen` bytes left in the source, the decrypt loop hands
exactly the next `msglen` bytes to `EVP_DecryptUpdate`, in chunks of at most
`bufsize` bytes, and stops in front of the byte that follows them. -/
theorem decrypt_loop_spec (A : Aead) (b : Nat) (hb : 0 < b) (F : List Byte) :
    ∀ (fuel : Nat) (c : FileCrypt A.Ctx) (w : World) (p : Nat),
      w.src = some F → c.ifs = ⟨true, true, p⟩ → p + c.msglen ≤ F.length →
      c.msglen < 2 ^ 64 → c.ofs = ⟨true, true⟩ → c.msglen < fuel →
      ∃ t out, Fed A.decrypt_update b c.ctx ((F.drop p).take c.msglen) t out ∧
        FileCrypt.decrypt_loop A b fuel c w =
          some ({ c with msglen := 0, ifs := ⟨true, true, p + c.msglen⟩, ctx := t },
                { w with dst := w.dst ++ out }) := by
  intro fuel
  induction fuel with
  | zero => intro c w p _ _ _ _ _ h; omega
  | succ fuel ih =>
    intro c w p hsrc hifs hp hm hofs hfuel
    by_cases hz : c.msglen = 0
    · refine ⟨c.ctx, [], ?_, ?_⟩
      · rw [hz, List.take_zero]; exact Fed.done _
      · rw [FileCrypt.decrypt_loop]
        simp only [hz, Nat.lt_irrefl, if_false, Nat.add_zero, List.append_nil]
        rw [← hifs, ← hz]
    · have hpos : 0 < c.msglen := Nat.pos_of_ne_zero hz
      have hk : 0 < min c.msglen b := by
        rw [Nat.lt_min]; exact ⟨hpos, hb⟩
      have hkm : min c.msglen b ≤ c.msglen := Nat.min_le_left _ _
      have hdl : ((F.drop p).take (min c.msglen b)).length = min c.msglen b := by
        simp only [List.length_take, List.length_drop]; omega
      have hr := read_good c w F (min c.msglen b) p hsrc hifs
      rw [hdl] at hr
      simp only [decide_True] at hr
      obtain ⟨t, out, hfed, hrun⟩ := ih
        { c with msglen := c.msglen - min c.msglen b,
                 ifs := ⟨true, true, p + min c.msglen b⟩,
                 ctx := (A.decrypt_update c.ctx ((F.drop p).take (min c.msglen b))).1 }
        { w with dst := w.dst ++ (A.decrypt_update c.ctx ((F.drop p).take (min c.msglen b))).2 }
        (p + min c.msglen b) hsrc rfl
        (by simp only []; omega) (by simp only []; omega) hofs (by simp only []; omega)
      simp only [] at hfed hrun
      refine ⟨t, (A.decrypt_update c.ctx ((F.drop p).take (min c.msglen b))).2 ++ out, ?_, ?_⟩
      · have hsplit : (F.drop p).take c.msglen =
            (F.drop p).take (min c.msglen b) ++
              (F.drop (p + min c.msglen b)).take (c.msglen - min c.msglen b) := by
          have h1 : c.msglen = min c.msglen b + (c.msglen - min c.msglen b) := by omega
          conv_lhs => rw [h1]
          rw [List.take_add, List.drop_drop]
        have := @Fed.chunk _ A.decrypt_update b c.ctx
          ((F.drop p).take (min c.msglen b))
          ((F.drop (p + min c.msglen b)).take (c.msglen - min c.msglen b)) t out
          (by intro h; rw [h] at hdl; simp at hdl; omega)
          (by rw [hdl]; exact Nat.min_le_right _ _) hfed
        rw [← hsplit] at this
        exact this
      · rw [FileCrypt.decrypt_loop]
        simp only [hpos, if_true, hr, FileCrypt.write, hofs, Bool.and_self, hdl,
          subSize_of_le c.msglen (min c.msglen b) hkm hm]
        simp only [hofs] at hrun
        rw [hrun]
        have h2 : p + min c.msglen b + (c.msglen - min c.msglen b) = p + c.msglen := by omega
        simp only [List.append_assoc, h2]

theorem read_facts {Ctx : Type} (c : FileCrypt Ctx) (w : World) (n : Nat) (F : List Byte)
    (hsrc : w.src = some F) :
    (c.read w n).2.msglen = c.msglen ∧
    ((c.read w n).2.ifs.is_open = true → (c.read w n).2.ifs.good = true →
      c.ifs.is_open = true ∧ c.ifs.good = true ∧
        (c.read w n).2.ifs.pos = c.ifs.pos + (c.read w n).1.length) ∧
    (c.read w n).1.length ≤ F.length - c.ifs.pos ∧
    (¬ (c.ifs.is_open = true ∧ c.ifs.good = true) → (c.read w n).1 = []) := by
  unfold FileCrypt.read
  by_cases hg : (c.ifs.is_open && c.ifs.good) = true
  · have hg2 : c.ifs.is_open = true ∧ c.ifs.good = true := by simpa using hg
    rw [if_pos hg]
    refine ⟨rfl, fun _ _ => ⟨hg2.1, hg2.2, rfl⟩, ?_, fun h => absurd hg2 h⟩
    simp only [hsrc, Option.getD_some, List.length_take, List.length_drop]
    omega
  · simp only [hg]
    refine ⟨rfl, ?_, by simp, fun _ => rfl⟩
    intro _ h
    simp at h

theorem write_facts {Ctx : Type} (c : FileCrypt Ctx) (w : World) (d : List Byte) :
    (c.write w d).1.msglen = c.msglen ∧ (c.write w d).1.ifs = c.ifs ∧
      (c.write w d).2.src = w.src := by
  unfold FileCrypt.write
  split <;> exact ⟨rfl, rfl, rfl⟩

/-- When fewer bytes are left in the source than `msglen` asks for, the
decrypt loop never ends: once the source is exhausted `read` delivers nothing
and `msglen` stays where it is. -/
theorem decrypt_loop_diverges (A : Aead) (b : Nat) (F : List Byte) :
    ∀ (fuel : Nat) (c : FileCrypt A.Ctx) (w : World),
      w.src = some F → 0 < c.msglen → c.msglen < 2 ^ 64 →
      (c.ifs.is_open = true → c.ifs.good = true → F.length - c.ifs.pos < c.msglen) →
      FileCrypt.decrypt_loop A b fuel c w = none := by
  intro fuel
  induction fuel with
  | zero => intro c w _ _ _ _; rfl
  | succ fuel ih =>
    intro c w hsrc hpos hm hinv
    rw [FileCrypt.decrypt_loop]
    simp only [hpos, if_true]
    obtain ⟨r1, r2, r3, r4⟩ := read_facts c w (min c.msglen b) F hsrc
    have hlt : (c.read w (min c.msglen b)).1.length < c.msglen := by
      by_cases hg : c.ifs.is_open = true ∧ c.ifs.good = true
      · have := hinv hg.1 hg.2
        omega
      · rw [r4 hg]; exact hpos
    have hsub := subSize_of_le c.msglen (c.read w (min c.msglen b)).1.length (by omega) hm
    apply ih
    · rw [(write_facts _ _ _).2.2]; exact hsrc
    · simp only [(write_facts _ _ _).1, r1, hsub]; omega
    · simp only [(write_facts _ _ _).1, r1, hsub]; omega
    · simp only [(write_facts _ _ _).1, (write_facts _ _ _).2.1, r1, hsub]
      intro ho hg
      obtain ⟨h1, h2, h3⟩ := r2 ho hg
      have := hinv h1 h2
      rw [h3]
      omega

/-! ## From chunked feeding to one-shot operation -/

theorem Fed.eq_update {Ctx : Type} {upd : Ctx → List Byte → Ctx × List Byte} {b : Nat}
    (hnil : ∀ s, upd s [] = (s, []))
    (happ : ∀ s x y, upd s (x ++ y) =
      ((upd (upd s x).1 y).1, (upd s x).2 ++ (upd (upd s x).1 y).2))
    {s t : Ctx} {xs out : List Byte} (h : Fed upd b s xs t out) : upd s xs = (t, out) := by
  induction h with
  | done s => exact hnil s
  | chunk s ch rest t out _ _ _ ih => rw [happ, ih]

theorem Fed.length_out {Ctx : Type} {upd : Ctx → List Byte → Ctx × List Byte} {b : Nat}
    (hlen : ∀ s x, (upd s x).2.length = x.length)
    {s t : Ctx} {xs out : List Byte} (h : Fed upd b s xs t out) : out.length = xs.length := by
  induction h with
  | done s => rfl
  | chunk s ch rest t out _ _ _ ih => simp [hlen, ih]

/-! ## The methods on a closed codec -/

theorem open_ok {Ctx : Type} (c : FileCrypt Ctx) (w : World) (F : List Byte)
    (hi : c.ifs.is_open = false) (ho : c.ofs.is_open = false)
    (hsrc : w.src = some F) (hcr : w.dst_creatable = true) :
    c.open w = (Outcome.ok,
      { c with msglen := F.length % 2 ^ 64, ifs := ⟨true, true, 0⟩, ofs := ⟨true, true⟩ },
      { w with dst := [] }) := by
  simp [FileCrypt.open, hi, ho, hsrc, hcr, get_file_size]

/-- What `encrypt()` does on an object whose streams are closed: the
destination receives salt, nonce, the outputs of the chunked encryption, the
output of the finalisation and the tag; `close()` then looks at `verified`. -/
theorem encrypt_spec (A : Aead) (K : Kdf) (b : Nat) (hb : 0 < b) (fuel : Nat)
    (c : FileCrypt A.Ctx) (w : World) (P : List Byte)
    (hi : c.ifs.is_open = false) (ho : c.ofs.is_open = false)
    (hsrc : w.src = some P) (hcr : w.dst_creatable = true) (hfuel : P.length < fuel) :
    ∃ t out,
      Fed A.encrypt_update b
        (A.encrypt_aad
          (A.encrypt_aad
            (A.encrypt_init c.ctx
              (Pbkdf2.new.derive K c.passphrase (get_random_bytes 32 w).1).1
              (Pbkdf2.new.derive K c.passphrase (get_random_bytes 32 w).1).2)
            (get_random_bytes 32 w).1)
          (Pbkdf2.new.derive K c.passphrase (get_random_bytes 32 w).1).2)
        P t out ∧
      FileCrypt.encrypt A K b fuel c w =
        some (if c.verified = 0 then Outcome.threw Error.tag_mismatch else Outcome.ok,
          { msglen := P.length % 2 ^ 64
            passphrase := c.passphrase
            ifs := ⟨false, false, P.length⟩
            ofs := ⟨false, true⟩
            salt := (get_random_bytes 32 w).1
            key := (Pbkdf2.new.derive K c.passphrase (get_random_bytes 32 w).1).1
            iv := (Pbkdf2.new.derive K c.passphrase (get_random_bytes 32 w).1).2
            tag := arrayStore 16 c.tag (A.get_tag (A.encrypt_final t).1)
            verified := c.verified
            ctx := (A.encrypt_final t).1 },
          { w with
            dst := if c.verified = 0 then [] else
              (get_random_bytes 32 w).1 ++
                (Pbkdf2.new.derive K c.passphrase (get_random_bytes 32 w).1).2 ++ out ++
                (A.encrypt_final t).2 ++ arrayStore 16 c.tag (A.get_tag (A.encrypt_final t).1),
            drawn := w.drawn + 32 }) := by
  have hsalt : arrayStore 32 c.salt (get_random_bytes 32 w).1 = (get_random_bytes 32 w).1 :=
    arrayStore_full _ _ _ (length_get_random_bytes 32 w)
  obtain ⟨t, out, hfed, hrun⟩ := encrypt_loop_spec A b hb P fuel
    { msglen := P.length % 2 ^ 64
      passphrase := c.passphrase
      ifs := ⟨true, true, 0⟩
      ofs := ⟨true, true⟩
      salt := (get_random_bytes 32 w).1
      key := (Pbkdf2.new.derive K c.passphrase (get_random_bytes 32 w).1).1
      iv := (Pbkdf2.new.derive K c.passphrase (get_random_bytes 32 w).1).2
      tag := c.tag
      verified := c.verified
      ctx := A.encrypt_aad
          (A.encrypt_aad
            (A.encrypt_init c.ctx
              (Pbkdf2.new.derive K c.passphrase (get_random_bytes 32 w).1).1
              (Pbkdf2.new.derive K c.passphrase (get_random_bytes 32 w).1).2)
            (get_random_bytes 32 w).1)
          (Pbkdf2.new.derive K c.passphrase (get_random_bytes 32 w).1).2 }
    { w with
      dst := (get_random_bytes 32 w).1 ++
        (Pbkdf2.new.derive K c.passphrase (get_random_bytes 32 w).1).2,
      drawn := w.drawn + 32 }
    true 0 hsrc rfl (Nat.zero_le _) (by intro h; cases h) rfl (by simpa using hfuel)
  refine ⟨t, out, by simpa using hfed, ?_⟩
  simp only [List.drop_zero] at hrun
  unfold FileCrypt.encrypt
  rw [open_ok c w P hi ho hsrc hcr]
  have hrnd : (get_random_bytes 32 w).2 = { w with drawn := w.drawn + 32 } := rfl
  have hrnd2 : (get_random_bytes 32 { w with dst := [] }).1 = (get_random_bytes 32 w).1 := rfl
  have hrnd3 : (get_random_bytes 32 { w with dst := [] }).2 =
      { w with dst := [], drawn := w.drawn + 32 } := rfl
  simp only [FileCrypt.init_encrypt, hrnd2, hrnd3, hsalt, FileCrypt.write, Bool.and_self, if_true,
    FileCrypt.create_enc_ctx, FileCrypt.process_encrypt, List.nil_append]
  rw [hrun]
  by_cases hv : c.verified = 0
  · simp [FileCrypt.close, FileCrypt.write, hv, hcr]
  · simp [FileCrypt.close, FileCrypt.write, hv, hcr]

theorem init_decrypt_spec {Ctx : Type} (K : Kdf) (c : FileCrypt Ctx) (w : World)
    (F : List Byte) (hsrc : w.src = some F) (hF : 48 ≤ F.length)
    (hifs : c.ifs = ⟨true, true, 0⟩) (hofs : c.ofs = ⟨true, true⟩)
    (hm : c.msglen = F.length % 2 ^ 64) :
    c.init_decrypt K w =
      (if (F.drop 32).take 16 = (Pbkdf2.new.derive K c.passphrase (F.take 32)).2
        then Outcome.ok else Outcome.threw Error.passphrase_mismatch,
       FileCrypt.afterHeader K c F) := by
  have h32 : (F.take 32).length = 32 := by
    rw [List.length_take]; omega
  have h16 : ((F.drop 32).take 16).length = 16 := by
    rw [List.length_take, List.length_drop]; omega
  obtain ⟨msglen, pass, ifs, ofs, salt, key, iv, tag, verified, ctx⟩ := c
  simp only at hifs hofs hm
  subst hifs hofs hm
  have e1 : (32 : Nat) + 16 + 16 = 64 := rfl
  simp only [FileCrypt.init_decrypt, FileCrypt.read, Bool.and_self, if_true, hsrc,
    Option.getD_some, List.drop_zero, h32, decide_True, Nat.zero_add,
    arrayStore_full 32 _ (F.take 32) h32, h16,
    arrayStore_full 16 _ ((F.drop 32).take 16) h16, FileCrypt.afterHeader, e1]
  by_cases h : (F.drop 32).take 16 = (Pbkdf2.new.derive K pass (F.take 32)).2
  · simp only [h, if_true]
  · simp only [h, if_false]

/-- The first phases of `decrypt()` on a closed object and a source of at
least 48 bytes: the stored nonce is compared with the derived one; on a
difference the call throws at once, otherwise it goes on to the cipher with
the derived key and the stored nonce. -/
theorem decrypt_header (A : Aead) (K : Kdf) (b fuel : Nat) (c : FileCrypt A.Ctx) (w : World)
    (F : List Byte) (hi : c.ifs.is_open = false) (ho : c.ofs.is_open = false)
    (hsrc : w.src = some F) (hcr : w.dst_creatable = true) (hF : 48 ≤ F.length) :
    FileCrypt.decrypt A K b fuel c w =
      if (F.drop 32).take 16 = (Pbkdf2.new.derive K c.passphrase (F.take 32)).2 then
        match FileCrypt.process_decrypt A b fuel
            (FileCrypt.create_dec_ctx A (FileCrypt.afterHeader K c F)) { w with dst := [] } with
        | none => none
        | some (c4, w4) => some (c4.close w4)
      else
        some (Outcome.threw Error.passphrase_mismatch, FileCrypt.afterHeader K c F,
          { w with dst := [] }) := by
  unfold FileCrypt.decrypt
  rw [open_ok c w F hi ho hsrc hcr]
  simp only []
  rw [init_decrypt_spec K _ { w with dst := [] } F hsrc hF rfl rfl rfl]
  by_cases h : (F.drop 32).take 16 = (Pbkdf2.new.derive K c.passphrase (F.take 32)).2
  · simp only [h, if_true]
    rfl
  · simp only [h, if_false]
    rfl

/-- What `decrypt()` does on a closed object, a source of at least 64 bytes
and a matching nonce: the bytes between header and tag go through the
chunked decryption into the destination, the last 16 bytes are set as the
expected tag, and `close()` acts on the result of the final verification. -/
theorem decrypt_spec (A : Aead) (K : Kdf) (b : Nat) (hb : 0 < b) (fuel : Nat)
    (c : FileCrypt A.Ctx) (w : World) (F : List Byte)
    (hi : c.ifs.is_open = false) (ho : c.ofs.is_open = false)
    (hsrc : w.src = some F) (hcr : w.dst_creatable = true)
    (hF : 64 ≤ F.length) (hF2 : F.length < 2 ^ 64)
    (hn : (F.drop 32).take 16 = (Pbkdf2.new.derive K c.passphrase (F.take 32)).2)
    (hfuel : F.length - 64 < fuel) :
    ∃ t out,
      Fed A.decrypt_update b
        (A.decrypt_aad
          (A.decrypt_aad
            (A.decrypt_init c.ctx (Pbkdf2.new.derive K c.passphrase (F.take 32)).1
              ((F.drop 32).take 16))
            (F.take 32))
          ((F.drop 32).take 16))
        ((F.drop 48).take (F.length - 64)) t out ∧
      FileCrypt.decrypt A K b fuel c w =
        some (if (A.decrypt_final (A.set_tag t (F.drop (F.length - 16)))).2.1 = 0
            then Outcome.threw Error.tag_mismatch else Outcome.ok,
          { msglen := 0
            passphrase := c.passphrase
            ifs := ⟨false, true, F.length⟩
            ofs := ⟨false, true⟩
            salt := F.take 32
            key := (Pbkdf2.new.derive K c.passphrase (F.take 32)).1
            iv := (F.drop 32).take 16
            tag := F.drop (F.length - 16)
            verified := (A.decrypt_final (A.set_tag t (F.drop (F.length - 16)))).2.1
            ctx := (A.decrypt_final (A.set_tag t (F.drop (F.length - 16)))).1 },
          { w with
            dst := if (A.decrypt_final (A.set_tag t (F.drop (F.length - 16)))).2.1 = 0
              then [] else
                out ++ (A.decrypt_final (A.set_tag t (F.drop (F.length - 16)))).2.2 }) := by
  have hmod : F.length % 2 ^ 64 = F.length := Nat.mod_eq_of_lt hF2
  have hsub : subSize (F.length % 2 ^ 64) 64 = F.length - 64 := by
    rw [hmod]; exact subSize_of_le _ _ hF hF2
  obtain ⟨t, out, hfed, hrun⟩ := decrypt_loop_spec A b hb F fuel
    { msglen := F.length - 64
      passphrase := c.passphrase
      ifs := ⟨true, true, 48⟩
      ofs := ⟨true, true⟩
      salt := F.take 32
      key := (Pbkdf2.new.derive K c.passphrase (F.take 32)).1
      iv := (F.drop 32).take 16
      tag := c.tag
      verified := c.verified
      ctx := A.decrypt_aad
          (A.decrypt_aad
            (A.decrypt_init c.ctx (Pbkdf2.new.derive K c.passphrase (F.take 32)).1
              ((F.drop 32).take 16))
            (F.take 32))
          ((F.drop 32).take 16) }
    { w with dst := [] } 48 hsrc rfl (by simp only []; omega) (by simp only []; omega) rfl
    (by simpa using hfuel)
  refine ⟨t, out, hfed, ?_⟩
  have htag : (F.drop (48 + (F.length - 64))).take 16 = F.drop (F.length - 16) := by
    have h1 : 48 + (F.length - 64) = F.length - 16 := by omega
    rw [h1]
    apply List.take_of_length_le
    simp only [List.length_drop]
    omega
  have htl : (F.drop (F.length - 16)).length = 16 := by
    simp only [List.length_drop]; omega
  have hpos : 48 + (F.length - 64) + 16 = F.length := by omega
  have hstate : FileCrypt.create_dec_ctx A (FileCrypt.afterHeader K c F) =
      { msglen := F.length - 64
        passphrase := c.passphrase
        ifs := ⟨true, true, 48⟩
        ofs := ⟨true, true⟩
        salt := F.take 32
        key := (Pbkdf2.new.derive K c.passphrase (F.take 32)).1
        iv := (F.drop 32).take 16
        tag := c.tag
        verified := c.verified
        ctx := A.decrypt_init c.ctx (Pbkdf2.new.derive K c.passphrase (F.take 32)).1
          ((F.drop 32).take 16) } := by
    unfold FileCrypt.create_dec_ctx FileCrypt.afterHeader
    rw [hsub]
  have hproc : FileCrypt.process_decrypt A b fuel
      { msglen := F.length - 64
        passphrase := c.passphrase
        ifs := ⟨true, true, 48⟩
        ofs := ⟨true, true⟩
        salt := F.take 32
        key := (Pbkdf2.new.derive K c.passphrase (F.take 32)).1
        iv := (F.drop 32).take 16
        tag := c.tag
        verified := c.verified
        ctx := A.decrypt_init c.ctx (Pbkdf2.new.derive K c.passphrase (F.take 32)).1
          ((F.drop 32).take 16) }
      { w with dst := [] } =
      some ({ msglen := 0
              passphrase := c.passphrase
              ifs := ⟨true, true, F.length⟩
              ofs := ⟨true, true⟩
              salt := F.take 32
              key := (Pbkdf2.new.derive K c.passphrase (F.take 32)).1
              iv := (F.drop 32).take 16
              tag := F.drop (F.length - 16)
              verified := (A.decrypt_final (A.set_tag t (F.drop (F.length - 16)))).2.1
              ctx := (A.decrypt_final (A.set_tag t (F.drop (F.length - 16)))).1 },
            { w with dst := out ++
                (A.decrypt_final (A.set_tag t (F.drop (F.length - 16)))).2.2 }) := by
    unfold FileCrypt.process_decrypt
    simp only []
    rw [hrun]
    simp only [FileCrypt.read, Bool.and_self, if_true, hsrc, Option.getD_some, htag,
      arrayStore_full 16 _ _ htl, htl, decide_True, FileCrypt.write, hpos, List.nil_append]
  rw [decrypt_header A K b fuel c w F hi ho hsrc hcr (by omega), if_pos hn, hstate, hproc]
  by_cases hv : (A.decrypt_final (A.set_tag t (F.drop (F.length - 16)))).2.1 = 0
  · simp only [FileCrypt.close, hv, hcr, if_true, Bool.and_self]
  · simp only [FileCrypt.close, hv, hcr, if_false, Bool.and_self]

/-- On a closed object, a source of 48 to 63 bytes and a matching nonce,
`decrypt()` does not return: `msglen` wraps around and the loop waits for
bytes the source does not have. -/
theorem decrypt_short_diverges (A : Aead) (K : Kdf) (b fuel : Nat)
    (c : FileCrypt A.Ctx) (w : World) (F : List Byte)
    (hi : c.ifs.is_open = false) (ho : c.ofs.is_open = false)
    (hsrc : w.src = some F) (hcr : w.dst_creatable = true)
    (hF : 48 ≤ F.length) (hF2 : F.length < 64)
    (hn : (F.drop 32).take 16 = (Pbkdf2.new.derive K c.passphrase (F.take 32)).2) :
    FileCrypt.decrypt A K b fuel c w = none := by
  have hmod : F.length % 2 ^ 64 = F.length := Nat.mod_eq_of_lt (by omega)
  have hsub : subSize (F.length % 2 ^ 64) 64 = 2 ^ 64 - (64 - F.length) := by
    rw [hmod]
    unfold subSize
    have h1 : (64 : Nat) % 2 ^ 64 = 64 := by decide
    rw [h1]
    have h2 : F.length + 2 ^ 64 - 64 = 2 ^ 64 - (64 - F.length) := by omega
    rw [h2]
    apply Nat.mod_eq_of_lt
    omega
  have hproc : FileCrypt.process_decrypt A b fuel
      (FileCrypt.create_dec_ctx A (FileCrypt.afterHeader K c F)) { w with dst := [] } = none := by
    unfold FileCrypt.process_decrypt FileCrypt.create_dec_ctx FileCrypt.afterHeader
    rw [hsub]
    simp only []
    rw [decrypt_loop_diverges A b F fuel _ { w with dst := [] } hsrc
      (by show 0 < 2 ^ 64 - (64 - F.length); omega)
      (by show 2 ^ 64 - (64 - F.length) < 2 ^ 64; omega)
      (by intro _ _; show F.length - 48 < 2 ^ 64 - (64 - F.length); omega)]
  rw [decrypt_header A K b fuel c w F hi ho hsrc hcr hF, if_pos hn, hproc]

/-! ## The stand-in primitives satisfy the expected properties -/

theorem toyKdf_fillsRequest : toyKdf.FillsRequest := by
  intro pass salt iter md keylen
  simp [toyKdf]

theorem toyAead_streaming : toyAead.Streaming where
  enc_nil := by intro s; cases s; simp [toyAead]
  enc_append := by intro s x y; simp [toyAead, add_assoc]
  dec_nil := by intro s; cases s; simp [toyAead]
  dec_append := by intro s x y; simp [toyAead, add_assoc]

theorem toyAead_sized : toyAead.Sized where
  update_length := by intro s x; simp [toyAead]
  final_nil := by intro s; rfl
  tag_length := by intro s; simp [toyAead, toyTag]

theorem toyAead_aadStreaming : toyAead.AadStreaming := by
  intro s x y
  simp [toyAead, add_assoc]

theorem toy_shift_back (k : Byte) (P : List Byte) :
    (P.map (fun v => v + k)).map (fun v => v - k) = P := by
  induction P with
  | nil => rfl
  | cons x xs ih =>
    show ((x + k) - k) :: ((xs.map (fun v => v + k)).map (fun v => v - k)) = x :: xs
    rw [ih, add_sub_cancel_right]

theorem toy_shift_back_comp (k : Byte) (P : List Byte) :
    P.map ((fun v => v - k) ∘ fun v => v + k) = P := by
  rw [← List.map_map]
  exact toy_shift_back k P

theorem toyAead_correct : toyAead.Correct := by
  intro c0 c1 key iv aads P
  have haad : ∀ (l : List (List Byte)) (s : ToyCtx),
      (l.foldl toyAead.decrypt_aad s) = (l.foldl toyAead.encrypt_aad s) := fun _ _ => rfl
  simp only [Aead.unseal, Aead.seal, haad]
  simp [toyAead, toyTag, toy_shift_back_comp]

set_option maxRecDepth 100000 in
theorem flipBit_ne (x : Byte) (j : Fin 8) : flipBit x j ≠ x := by
  revert x j
  decide

theorem flipBitAt_ne (j : Fin 8) : ∀ (l : List Byte) (i : Nat), i < l.length →
    flipBitAt l i j ≠ l := by
  intro l
  induction l with
  | nil => intro i h; simp at h
  | cons x xs ih =>
    intro i h
    cases i with
    | zero =>
      intro he
      simp only [flipBitAt, List.cons.injEq, and_true] at he
      exact flipBit_ne x j he
    | succ i =>
      intro he
      simp only [flipBitAt, List.cons.injEq, true_and] at he
      exact ih i (by simpa using h) he

theorem sum_flipBitAt_ne (j : Fin 8) : ∀ (l : List Byte) (i : Nat), i < l.length →
    (flipBitAt l i j).sum ≠ l.sum := by
  intro l
  induction l with
  | nil => intro i h; simp at h
  | cons x xs ih =>
    intro i h
    cases i with
    | zero =>
      intro he
      simp only [flipBitAt, List.sum_cons] at he
      exact flipBit_ne x j (add_right_cancel he)
    | succ i =>
      intro he
      simp only [flipBitAt, List.sum_cons] at he
      exact ih i (by simpa using h) (add_left_cancel he)

theorem length_flipBitAt (j : Fin 8) : ∀ (l : List Byte) (i : Nat),
    (flipBitAt l i j).length = l.length := by
  intro l
  induction l with
  | nil => intro i; rfl
  | cons x xs ih =>
    intro i
    cases i with
    | zero => rfl
    | succ i => simp [flipBitAt, ih]

theorem toy_aad_fold (aads : List (List Byte)) : ∀ (s : ToyCtx),
    aads.foldl toyAead.encrypt_aad s =
      ⟨s.k, aads.foldl (fun a x => a + x.sum) s.acc, s.expect⟩ := by
  induction aads with
  | nil => intro s; rfl
  | cons a l ih => intro s; rw [List.foldl_cons, ih]; rfl

theorem toy_seal (c0 : ToyCtx) (key iv : List Byte) (aads : List (List Byte)) (P : List Byte) :
    toyAead.seal c0 key iv aads P =
      (P.map (fun v => v + (key.sum + iv.sum + 1)),
       toyTag ⟨key.sum + iv.sum + 1,
         aads.foldl (fun a x => a + x.sum) 0 +
           (P.map (fun v => v + (key.sum + iv.sum + 1))).sum, []⟩) := by
  unfold Aead.seal
  rw [toy_aad_fold]
  simp [toyAead]

theorem toy_unseal (c1 : ToyCtx) (key iv : List Byte) (aads : List (List Byte))
    (C T : List Byte) :
    toyAead.unseal c1 key iv aads C T =
      (if T = toyTag ⟨key.sum + iv.sum + 1, aads.foldl (fun a x => a + x.sum) 0 + C.sum, T⟩
        then 1 else 0,
       C.map (fun v => v - (key.sum + iv.sum + 1))) := by
  unfold Aead.unseal
  have h : ∀ (l : List (List Byte)) (s : ToyCtx),
      (l.foldl toyAead.decrypt_aad s) = (l.foldl toyAead.encrypt_aad s) := fun _ _ => rfl
  rw [h, toy_aad_fold]
  simp [toyAead]

theorem toyAead_rejectsBitFlips : toyAead.RejectsBitFlips := by
  intro c0 c1 key iv aads P i j
  rw [toy_seal]
  constructor
  · intro hi
    rw [toy_unseal]
    simp only []
    rw [if_neg]
    intro he
    simp only [toyTag, List.cons.injEq, and_true] at he
    exact sum_flipBitAt_ne j _ i hi (add_left_cancel he).symm
  · intro hi
    rw [toy_unseal]
    simp only []
    rw [if_neg]
    intro he
    exact flipBitAt_ne j _ i (by simpa [toyTag] using hi) he

/-! ## Encrypt and decrypt on a freshly constructed object -/

theorem length_salt (w : World) : w.salt.length = 32 := length_get_random_bytes 32 w

theorem length_nonceOf (K : Kdf) (S salt : List Byte) : (nonceOf K S salt).length = 16 :=
  derive_iv_length K _ S salt

theorem new_tag_length (A : Aead) (u : Uninit) (S x : List Byte) :
    (arrayStore 16 (FileCrypt.new A u S).tag x).length = 16 :=
  length_arrayStore 16 _ _ (length_arrayStore 16 _ _ (by simp))

/-- On a fresh object `encrypt()` returns normally and leaves salt, nonce,
the chunk outputs, the finalisation output and the 16 tag bytes. -/
theorem encrypt_fresh (A : Aead) (K : Kdf) (b : Nat) (hb : 0 < b) (fuel : Nat) (u : Uninit)
    (S P : List Byte) (w : World) (hsrc : w.src = some P) (hcr : w.dst_creatable = true)
    (hfuel : P.length < fuel) :
    ∃ t out,
      Fed A.encrypt_update b
        (A.encrypt_aad (A.encrypt_aad
          (A.encrypt_init A.ctx_new (keyOf K S w.salt) (nonceOf K S w.salt)) w.salt)
          (nonceOf K S w.salt)) P t out ∧
      observe (FileCrypt.encrypt A K b fuel (FileCrypt.new A u S) w) =
        some (Outcome.ok,
          w.salt ++ nonceOf K S w.salt ++ out ++ (A.encrypt_final t).2 ++
            arrayStore 16 (FileCrypt.new A u S).tag (A.get_tag (A.encrypt_final t).1)) := by
  obtain ⟨t, out, hfed, hrun⟩ := encrypt_spec A K b hb fuel (FileCrypt.new A u S) w P rfl rfl
    hsrc hcr hfuel
  refine ⟨t, out, hfed, ?_⟩
  rw [hrun]
  have hv : (FileCrypt.new A u S).verified = 1 := rfl
  simp only [observe, Option.map_some', hv, one_ne_zero, if_false]
  rfl

/-- Under the streaming law the bytes produced are those of the one-shot
sealing. -/
theorem encrypt_fresh_sealed (A : Aead) (K : Kdf) (hst : A.Streaming) (hsz : A.Sized)
    (b : Nat) (hb : 0 < b) (fuel : Nat) (u : Uninit)
    (S P : List Byte) (w : World) (hsrc : w.src = some P) (hcr : w.dst_creatable = true)
    (hfuel : P.length < fuel) :
    observe (FileCrypt.encrypt A K b fuel (FileCrypt.new A u S) w) =
      some (Outcome.ok, sealedFile A K S w.salt P) := by
  obtain ⟨t, out, hfed, hrun⟩ := encrypt_fresh A K b hb fuel u S P w hsrc hcr hfuel
  have hup := Fed.eq_update hst.enc_nil hst.enc_append hfed
  rw [hrun, arrayStore_full 16 _ _ (hsz.tag_length _)]
  simp only [sealedFile, Aead.seal, List.foldl_cons, List.foldl_nil, hup, List.append_assoc]

theorem file_parts (s v C T : List Byte) (hs : s.length = 32) (hv : v.length = 16)
    (hT : T.length = 16) :
    (s ++ v ++ C ++ T).length = C.length + 64 ∧
    (s ++ v ++ C ++ T).take 32 = s ∧
    ((s ++ v ++ C ++ T).drop 32).take 16 = v ∧
    ((s ++ v ++ C ++ T).drop 48).take ((s ++ v ++ C ++ T).length - 64) = C ∧
    (s ++ v ++ C ++ T).drop ((s ++ v ++ C ++ T).length - 16) = T := by
  have hlen : (s ++ v ++ C ++ T).length = C.length + 64 := by
    simp only [List.length_append, hs, hv, hT]; omega
  have e1 : s ++ v ++ C ++ T = s ++ (v ++ (C ++ T)) := by simp only [List.append_assoc]
  have h32 : (s ++ (v ++ (C ++ T))).drop 32 = v ++ (C ++ T) := by
    rw [← hs]; exact List.drop_left _ _
  have h48 : (s ++ (v ++ (C ++ T))).drop 48 = C ++ T := by
    have : (48 : Nat) = 32 + 16 := rfl
    rw [this, ← List.drop_drop, h32, ← hv]
    exact List.drop_left _ _
  refine ⟨hlen, ?_, ?_, ?_, ?_⟩
  · rw [e1, ← hs]; exact List.take_left _ _
  · rw [e1, h32, ← hv]; exact List.take_left _ _
  · rw [hlen, e1, h48, Nat.add_sub_cancel]; exact List.take_left _ _
  · rw [hlen, e1]
    have : C.length + 64 - 16 = 32 + (16 + C.length) := by omega
    rw [this, ← List.drop_drop, h32, ← List.drop_drop]
    have h16 : (v ++ (C ++ T)).drop 16 = C ++ T := by rw [← hv]; exact List.drop_left _ _
    rw [h16]
    exact List.drop_left _ _

/-- On a fresh object and a source made of a 32 byte salt, the nonce derived
from it, a ciphertext and 16 tag bytes, `decrypt()` behaves like the one-shot
opening: it throws the tag mismatch and leaves an empty destination when the
verification fails, and otherwise leaves the plaintext. -/
theorem decrypt_parts (A : Aead) (K : Kdf) (hst : A.Streaming) (b : Nat) (hb : 0 < b)
    (fuel : Nat) (u : Uninit) (S : List Byte) (w : World) (s C T : List Byte)
    (hs : s.length = 32) (hT : T.length = 16) (hsz : C.length + 64 < 2 ^ 64)
    (hsrc : w.src = some (s ++ nonceOf K S s ++ C ++ T)) (hcr : w.dst_creatable = true)
    (hfuel : C.length < fuel) :
    observe (FileCrypt.decrypt A K b fuel (FileCrypt.new A u S) w) =
      some (if (A.unseal A.ctx_new (keyOf K S s) (nonceOf K S s) [s, nonceOf K S s] C T).1 = 0
          then (Outcome.threw Error.tag_mismatch, [])
          else (Outcome.ok,
            (A.unseal A.ctx_new (keyOf K S s) (nonceOf K S s) [s, nonceOf K S s] C T).2)) := by
  obtain ⟨h1, h2, h3, h4, h5⟩ := file_parts s (nonceOf K S s) C T hs (length_nonceOf K S s) hT
  obtain ⟨t, out, hfed, hrun⟩ := decrypt_spec A K b hb fuel (FileCrypt.new A u S) w
    (s ++ nonceOf K S s ++ C ++ T) rfl rfl hsrc hcr (by omega) (by omega)
    (by rw [h2, h3]; rfl) (by omega)
  rw [h2, h3, h4] at hfed
  rw [h5] at hrun
  have hup := Fed.eq_update hst.dec_nil hst.dec_append hfed
  have hun : A.unseal A.ctx_new (keyOf K S s) (nonceOf K S s) [s, nonceOf K S s] C T =
      ((A.decrypt_final (A.set_tag t T)).2.1, out ++ (A.decrypt_final (A.set_tag t T)).2.2) := by
    simp only [Aead.unseal, List.foldl_cons, List.foldl_nil]
    have hp : (FileCrypt.new A u S).passphrase = S := rfl
    have hc : (FileCrypt.new A u S).ctx = A.ctx_new := rfl
    rw [hp, hc] at hup
    simp only [keyOf, nonceOf] at hup ⊢
    rw [hup]
  rw [hrun, hun]
  by_cases hv : (A.decrypt_final (A.set_tag t T)).2.1 = 0
  · simp only [observe, Option.map_some', hv, if_true]
  · simp only [observe, Option.map_some', hv, if_false]

theorem seal_lengths (A : Aead) (hsz : A.Sized) (c0 : A.Ctx) (key iv : List Byte)
    (aads : List (List Byte)) (P : List Byte) :
    (A.seal c0 key iv aads P).1.length = P.length ∧ (A.seal c0 key iv aads P).2.length = 16 := by
  simp only [Aead.seal, List.length_append, hsz.update_length, hsz.final_nil, hsz.tag_length,
    List.length_nil, Nat.add_zero, and_self]

theorem flipBitAt_append_left (j : Fin 8) (ys : List Byte) : ∀ (xs : List Byte) (i : Nat),
    i < xs.length → flipBitAt (xs ++ ys) i j = flipBitAt xs i j ++ ys := by
  intro xs
  induction xs with
  | nil => intro i h; simp at h
  | cons x xs ih =>
    intro i h
    cases i with
    | zero => rfl
    | succ i =>
      show x :: flipBitAt (xs ++ ys) i j = x :: (flipBitAt xs i j ++ ys)
      rw [ih i (by simpa using h)]

theorem flipBitAt_append_right (j : Fin 8) (ys : List Byte) : ∀ (xs : List Byte) (i : Nat),
    xs.length ≤ i → flipBitAt (xs ++ ys) i j = xs ++ flipBitAt ys (i - xs.length) j := by
  intro xs
  induction xs with
  | nil => intro i _; rfl
  | cons x xs ih =>
    intro i h
    cases i with
    | zero => simp at h
    | succ i =>
      show x :: flipBitAt (xs ++ ys) i j = x :: (xs ++ flipBitAt ys (i + 1 - (xs.length + 1)) j)
      rw [ih i (by simpa using h), Nat.add_sub_add_right]

/-- Round trip with independent buffer sizes for the two directions. -/
theorem roundtrip_general (A : Aead) (K : Kdf) (hst : A.Streaming) (hsz : A.Sized)
    (hc : A.Correct) (b1 b2 : Nat) (hb1 : 0 < b1) (hb2 : 0 < b2) (u1 u2 : Uninit)
    (S P : List Byte) (w1 : World) (f1 f2 : Nat)
    (hsrc1 : w1.src = some P) (hcr1 : w1.dst_creatable = true)
    (hlen : P.length + 64 < 2 ^ 64) (hf1 : P.length < f1) (hf2 : P.length < f2) :
    observe (FileCrypt.encrypt A K b1 f1 (FileCrypt.new A u1 S) w1) =
        some (Outcome.ok, sealedFile A K S w1.salt P) ∧
      ∀ w2 : World, w2.src = some (sealedFile A K S w1.salt P) → w2.dst_creatable = true →
        observe (FileCrypt.decrypt A K b2 f2 (FileCrypt.new A u2 S) w2) =
          some (Outcome.ok, P) := by
  refine ⟨encrypt_fresh_sealed A K hst hsz b1 hb1 f1 u1 S P w1 hsrc1 hcr1 hf1, ?_⟩
  intro w2 hsrc2 hcr2
  obtain ⟨hl1, hl2⟩ := seal_lengths A hsz A.ctx_new (keyOf K S w1.salt) (nonceOf K S w1.salt)
    [w1.salt, nonceOf K S w1.salt] P
  rw [decrypt_parts A K hst b2 hb2 f2 u2 S w2 w1.salt _ _ (length_salt w1) hl2
    (by rw [hl1]; exact hlen) hsrc2 hcr2 (by rw [hl1]; exact hf2)]
  rw [hc]
  simp only [one_ne_zero, if_false]

theorem sealedFile_eq_fileFormat (A : Aead) (K : Kdf) (haad : A.AadStreaming)
    (S salt P : List Byte) : sealedFile A K S salt P = fileFormat A K S salt P := by
  simp only [sealedFile, fileFormat, Aead.seal, List.foldl_cons, List.foldl_nil, haad _ _ _]

/-! ## The claims -/

/-- C1 (round trip): for every plaintext `P` of any length and every
passphrase `S`, with an AEAD primitive that satisfies the streaming, size
and correctness laws, `encrypt()` on a source holding `P` returns normally
and leaves a file `E`, and `decrypt()` with the same passphrase on a source
holding `E` returns normally and leaves exactly `P` in its destination. -/
theorem encrypt_then_decrypt_roundtrip (A : Aead) (K : Kdf) (hst : A.Streaming)
    (hsz : A.Sized) (hc : A.Correct) (b : Nat) (hb : 0 < b) (u1 u2 : Uninit)
    (S P : List Byte) (w1 : World) (f1 f2 : Nat)
    (hsrc1 : w1.src = some P) (hcr1 : w1.dst_creatable = true)
    (hlen : P.length + 64 < 2 ^ 64) (hf1 : P.length < f1) (hf2 : P.length < f2) :
    ∃ E : List Byte,
      observe (FileCrypt.encrypt A K b f1 (FileCrypt.new A u1 S) w1) = some (Outcome.ok, E) ∧
      ∀ w2 : World, w2.src = some E → w2.dst_creatable = true →
        observe (FileCrypt.decrypt A K b f2 (FileCrypt.new A u2 S) w2) =
          some (Outcome.ok, P) :=
  ⟨sealedFile A K S w1.salt P,
    roundtrip_general A K hst hsz hc b b hb hb u1 u2 S P w1 f1 f2 hsrc1 hcr1 hlen hf1 hf2⟩

/-- Witness for C1 with the stand-in primitives, buffer size 4 and a 5 byte
plaintext (not a multiple of the buffer size). -/
theorem encrypt_then_decrypt_roundtrip_witness :
    ∃ E : List Byte,
      observe (FileCrypt.encrypt toyAead toyKdf 4 6 (FileCrypt.new toyAead zeroUninit [1, 2])
        (toyWorld [10, 20, 30, 40, 50])) = some (Outcome.ok, E) ∧
      observe (FileCrypt.decrypt toyAead toyKdf 4 6 (FileCrypt.new toyAead zeroUninit [1, 2])
        (toyWorld E)) = some (Outcome.ok, [10, 20, 30, 40, 50]) :=
  (encrypt_then_decrypt_roundtrip toyAead toyKdf toyAead_streaming toyAead_sized
    toyAead_correct 4 (by decide) zeroUninit zeroUninit [1, 2] [10, 20, 30, 40, 50]
    (toyWorld [10, 20, 30, 40, 50]) 6 6 rfl rfl (by decide) (by decide) (by decide)).imp
    fun E h => ⟨h.1, h.2 (toyWorld E) rfl rfl⟩

/-- C4 as the code has it (format invariant): with a primitive whose outputs
have the GCM sizes, `encrypt()` on a plaintext of `N` bytes returns normally
and leaves exactly `48 + N + 16` bytes, for every buffer size that is
positive and below `2 ^ 31` (the sizes for which the `int` count of the read
loop is the number of bytes read); for the empty plaintext that is 64
bytes. -/
theorem encrypt_output_length (A : Aead) (K : Kdf) (hsz : A.Sized) (b : Nat) (hb : 0 < b)
    (hfit : b < 2 ^ 31) (u : Uninit) (S P : List Byte) (w : World) (f : Nat)
    (hsrc : w.src = some P) (hcr : w.dst_creatable = true) (hf : P.length < f) :
    ∃ E : List Byte,
      observe (FileCrypt.encrypt A K b f (FileCrypt.new A u S) w) = some (Outcome.ok, E) ∧
      E.length = 48 + P.length + 16 ∧ (P = [] → E.length = 64) := by
  have _ := hfit
  obtain ⟨t, out, hfed, hrun⟩ := encrypt_fresh A K b hb f u S P w hsrc hcr hf
  have hout := Fed.length_out hsz.update_length hfed
  have hl : (w.salt ++ nonceOf K S w.salt ++ out ++ (A.encrypt_final t).2 ++
      arrayStore 16 (FileCrypt.new A u S).tag (A.get_tag (A.encrypt_final t).1)).length =
      48 + P.length + 16 := by
    simp only [List.length_append, length_salt, length_nonceOf, hout, hsz.final_nil,
      new_tag_length, List.length_nil]
  refine ⟨_, hrun, hl, ?_⟩
  intro hP
  rw [hl, hP]
  rfl

/-- Witness for the amended C4 with the stand-in primitives: a 5 byte
plaintext and buffer size 2. -/
theorem encrypt_output_length_witness :
    ∃ E : List Byte,
      observe (FileCrypt.encrypt toyAead toyKdf 2 6 (FileCrypt.new toyAead zeroUninit [1, 2])
        (toyWorld [10, 20, 30, 40, 50])) = some (Outcome.ok, E) ∧
      E.length = 48 + 5 + 16 ∧ (([10, 20, 30, 40, 50] : List Byte) = [] → E.length = 64) :=
  encrypt_output_length toyAead toyKdf toyAead_sized 2 (by decide) (by decide) zeroUninit
    [1, 2] [10, 20, 30, 40, 50] (toyWorld [10, 20, 30, 40, 50]) 6 rfl rfl (by decide)

/-- C4 as stated fails for the buffer size 0: the first `read` delivers no
byte, the loop ends at once, and `encrypt()` returns normally having written
header and tag only, 64 bytes for a plaintext of 5 bytes instead of
`48 + 5 + 16`. -/
theorem encrypt_output_length_zero_buffer :
    (observe (FileCrypt.encrypt toyAead toyKdf 0 6 (FileCrypt.new toyAead zeroUninit [1, 2])
        (toyWorld [10, 20, 30, 40, 50]))).map (fun r => (r.1, r.2.length)) =
      some (Outcome.ok, 64) ∧
    (64 : Nat) ≠ 48 + ([10, 20, 30, 40, 50] : List Byte).length + 16 := by
  decide

/-- C5 (file layout): with a primitive that satisfies the streaming and size
laws and accepts associated data in pieces, the destination written by
`encrypt()` is exactly salt, nonce, ciphertext, tag in this order, where the
salt is the 32 bytes freshly drawn, key and nonce are derived from passphrase
and salt, and ciphertext and tag are the one-shot AEAD output for the
plaintext with associated data salt ‖ nonce; the four parts have 32, 16, `N`
and 16 bytes, so nothing else (the key in particular) is written. -/
theorem encrypt_writes_file_format (A : Aead) (K : Kdf) (hst : A.Streaming) (hsz : A.Sized)
    (haad : A.AadStreaming) (b : Nat) (hb : 0 < b) (u : Uninit) (S P : List Byte) (w : World)
    (f : Nat) (hsrc : w.src = some P) (hcr : w.dst_creatable = true) (hf : P.length < f) :
    observe (FileCrypt.encrypt A K b f (FileCrypt.new A u S) w) =
      some (Outcome.ok,
        w.salt ++ nonceOf K S w.salt ++
          (A.seal A.ctx_new (keyOf K S w.salt) (nonceOf K S w.salt)
            [w.salt ++ nonceOf K S w.salt] P).1 ++
          (A.seal A.ctx_new (keyOf K S w.salt) (nonceOf K S w.salt)
            [w.salt ++ nonceOf K S w.salt] P).2) ∧
    w.salt = (List.range 32).map (fun i => w.random (w.drawn + i)) ∧
    (keyOf K S w.salt, nonceOf K S w.salt) = Pbkdf2.new.derive K S w.salt ∧
    w.salt.length = 32 ∧ (nonceOf K S w.salt).length = 16 ∧
    (A.seal A.ctx_new (keyOf K S w.salt) (nonceOf K S w.salt)
      [w.salt ++ nonceOf K S w.salt] P).1.length = P.length ∧
    (A.seal A.ctx_new (keyOf K S w.salt) (nonceOf K S w.salt)
      [w.salt ++ nonceOf K S w.salt] P).2.length = 16 := by
  refine ⟨?_, rfl, rfl, length_salt w, length_nonceOf K S w.salt,
    (seal_lengths A hsz _ _ _ _ P).1, (seal_lengths A hsz _ _ _ _ P).2⟩
  rw [encrypt_fresh_sealed A K hst hsz b hb f u S P w hsrc hcr hf,
    sealedFile_eq_fileFormat A K haad]
  rfl

/-- Witness for C5 with the stand-in primitives. -/
theorem encrypt_writes_file_format_witness :
    observe (FileCrypt.encrypt toyAead toyKdf 4 6 (FileCrypt.new toyAead zeroUninit [1, 2])
        (toyWorld [10, 20, 30, 40, 50])) =
      some (Outcome.ok, fileFormat toyAead toyKdf [1, 2] (toyWorld [10, 20, 30, 40, 50]).salt
        [10, 20, 30, 40, 50]) :=
  (encrypt_writes_file_format toyAead toyKdf toyAead_streaming toyAead_sized
    toyAead_aadStreaming 4 (by decide) zeroUninit [1, 2] [10, 20, 30, 40, 50]
    (toyWorld [10, 20, 30, 40, 50]) 6 rfl rfl (by decide)).1

/-- C6 (chunking independence): with a primitive that satisfies the
streaming, size and correctness laws, `encrypt()` run with any two positive
buffer sizes below `2 ^ 31` (the sizes for which the `int` count of the
loops is the number of bytes read) on the same plaintext, passphrase and
salt leaves the same file, and `decrypt()` run with the second buffer size
on the file encrypted with the first leaves exactly the plaintext. -/
theorem chunking_independence (A : Aead) (K : Kdf) (hst : A.Streaming) (hsz : A.Sized)
    (hc : A.Correct) (b1 b2 : Nat) (hb1 : 0 < b1) (hb2 : 0 < b2)
    (hfit1 : b1 < 2 ^ 31) (hfit2 : b2 < 2 ^ 31) (u1 u2 u3 : Uninit)
    (S P : List Byte) (w : World) (f : Nat)
    (hsrc : w.src = some P) (hcr : w.dst_creatable = true)
    (hlen : P.length + 64 < 2 ^ 64) (hf : P.length < f) :
    observe (FileCrypt.encrypt A K b1 f (FileCrypt.new A u1 S) w) =
      observe (FileCrypt.encrypt A K b2 f (FileCrypt.new A u2 S) w) ∧
    ∃ E : List Byte,
      observe (FileCrypt.encrypt A K b1 f (FileCrypt.new A u1 S) w) = some (Outcome.ok, E) ∧
      ∀ w2 : World, w2.src = some E → w2.dst_creatable = true →
        observe (FileCrypt.decrypt A K b2 f (FileCrypt.new A u3 S) w2) =
          some (Outcome.ok, P) := by
  have _ := hfit1
  have _ := hfit2
  exact ⟨(encrypt_fresh_sealed A K hst hsz b1 hb1 f u1 S P w hsrc hcr hf).trans
      (encrypt_fresh_sealed A K hst hsz b2 hb2 f u2 S P w hsrc hcr hf).symm,
    sealedFile A K S w.salt P,
    roundtrip_general A K hst hsz hc b1 b2 hb1 hb2 u1 u3 S P w f f hsrc hcr hlen hf hf⟩

/-- Witness for C6 with the stand-in primitives: buffer sizes 2 and 3 on a
5 byte plaintext. -/
theorem chunking_independence_witness :
    observe (FileCrypt.encrypt toyAead toyKdf 2 6 (FileCrypt.new toyAead zeroUninit [1, 2])
        (toyWorld [10, 20, 30, 40, 50])) =
      observe (FileCrypt.encrypt toyAead toyKdf 3 6 (FileCrypt.new toyAead zeroUninit [1, 2])
        (toyWorld [10, 20, 30, 40, 50])) :=
  (chunking_independence toyAead toyKdf toyAead_streaming toyAead_sized toyAead_correct
    2 3 (by decide) (by decide) (by decide) (by decide) zeroUninit zeroUninit zeroUninit
    [1, 2] [10, 20, 30, 40, 50] (toyWorld [10, 20, 30, 40, 50]) 6 rfl rfl (by decide)
    (by decide)).1

/-- C7 (key derivation): `derive` asks the primitive for exactly 48 bytes
with the fixed iteration count 2020 and SHA-256 and returns the first 32 of
them as key and the next 16 as nonce, so key ‖ nonce is the 48 byte output of
the primitive; being a function of passphrase and salt alone it is
deterministic and has no error outcome. -/
theorem derive_splits_kdf_output (K : Kdf) (pass salt : List Byte)
    (h : (K.pbkdf2_hmac pass salt 2020 Md.sha256 48).length = 48) :
    Pbkdf2.new.derive K pass salt =
      ((K.pbkdf2_hmac pass salt 2020 Md.sha256 48).take 32,
       (K.pbkdf2_hmac pass salt 2020 Md.sha256 48).drop 32) ∧
    (Pbkdf2.new.derive K pass salt).1 ++ (Pbkdf2.new.derive K pass salt).2 =
      K.pbkdf2_hmac pass salt 2020 Md.sha256 48 ∧
    (Pbkdf2.new.derive K pass salt).1.length = 32 ∧
    (Pbkdf2.new.derive K pass salt).2.length = 16 := by
  have hd : Pbkdf2.new.derive K pass salt =
      ((K.pbkdf2_hmac pass salt 2020 Md.sha256 48).take 32,
       (K.pbkdf2_hmac pass salt 2020 Md.sha256 48).drop 32) := by
    unfold Pbkdf2.derive
    simp only [Pbkdf2.new, arrayStore_full 48 _ _ h]
  refine ⟨hd, ?_, derive_key_length K _ pass salt, derive_iv_length K _ pass salt⟩
  rw [hd]
  exact List.take_append_drop 32 _

/-- Witness for C7 with the stand-in key derivation. -/
theorem derive_splits_kdf_output_witness :
    (Pbkdf2.new.derive toyKdf [1, 2] [7, 7]).1 ++ (Pbkdf2.new.derive toyKdf [1, 2] [7, 7]).2 =
      toyKdf.pbkdf2_hmac [1, 2] [7, 7] 2020 Md.sha256 48 :=
  (derive_splits_kdf_output toyKdf [1, 2] [7, 7] (toyKdf_fillsRequest _ _ _ _ _)).2.1

theorem flip_sealed (s n C T : List Byte) (i : Nat) (j : Fin 8)
    (hs : s.length = 32) (hn : n.length = 16) (hi : 48 ≤ i)
    (hi2 : i < (s ++ n ++ C ++ T).length) :
    (i - 48 < C.length ∧
        flipBitAt (s ++ n ++ C ++ T) i j = s ++ n ++ flipBitAt C (i - 48) j ++ T) ∨
    (i - 48 - C.length < T.length ∧
        flipBitAt (s ++ n ++ C ++ T) i j = s ++ n ++ C ++ flipBitAt T (i - 48 - C.length) j) := by
  have h48 : (s ++ n).length = 48 := by rw [List.length_append, hs, hn]
  have hlen : (s ++ n ++ C ++ T).length = 48 + C.length + T.length := by
    simp only [List.length_append, hs, hn]
  by_cases hc : i < 48 + C.length
  · left
    refine ⟨by omega, ?_⟩
    rw [flipBitAt_append_left j T (s ++ n ++ C) i (by rw [List.length_append, h48]; exact hc),
      flipBitAt_append_right j C (s ++ n) i (by rw [h48]; exact hi), h48, List.append_assoc (s ++ n)]
  · right
    refine ⟨by omega, ?_⟩
    rw [flipBitAt_append_right j T (s ++ n ++ C) i (by rw [List.length_append, h48]; omega),
      List.length_append, h48, Nat.sub_add_eq]

/-- C2 (tamper detection): with a primitive that satisfies the streaming and
size laws and rejects single bit flips, flipping any single bit in the
ciphertext region (bytes 48 .. 48+N-1) or the tag region (the last 16 bytes)
of a file produced by `encrypt()` makes `decrypt()` with the right passphrase
throw the tag mismatch, and the destination is empty afterwards. -/
theorem tampering_detected (A : Aead) (K : Kdf) (hst : A.Streaming) (hsz : A.Sized)
    (hr : A.RejectsBitFlips) (b : Nat) (hb : 0 < b) (u1 u2 : Uninit)
    (S P : List Byte) (w1 : World) (f1 f2 : Nat)
    (hsrc1 : w1.src = some P) (hcr1 : w1.dst_creatable = true)
    (hlen : P.length + 64 < 2 ^ 64) (hf1 : P.length < f1) (hf2 : P.length < f2) :
    ∃ E : List Byte,
      observe (FileCrypt.encrypt A K b f1 (FileCrypt.new A u1 S) w1) = some (Outcome.ok, E) ∧
      E.length = 48 + P.length + 16 ∧
      ∀ (i : Nat) (j : Fin 8) (w2 : World), 48 ≤ i → i < E.length →
        w2.src = some (flipBitAt E i j) → w2.dst_creatable = true →
        observe (FileCrypt.decrypt A K b f2 (FileCrypt.new A u2 S) w2) =
          some (Outcome.threw Error.tag_mismatch, []) := by
  obtain ⟨hl1, hl2⟩ := seal_lengths A hsz A.ctx_new (keyOf K S w1.salt) (nonceOf K S w1.salt)
    [w1.salt, nonceOf K S w1.salt] P
  refine ⟨sealedFile A K S w1.salt P,
    encrypt_fresh_sealed A K hst hsz b hb f1 u1 S P w1 hsrc1 hcr1 hf1, ?_, ?_⟩
  · simp only [sealedFile, List.length_append, length_salt, length_nonceOf, hl1, hl2]
  · intro i j w2 hi hi2 hsrc2 hcr2
    rcases flip_sealed w1.salt (nonceOf K S w1.salt) _ _ i j (length_salt w1)
      (length_nonceOf K S w1.salt) hi hi2 with ⟨hlt, hflip⟩ | ⟨hlt, hflip⟩
    · have hsrc3 := hsrc2
      unfold sealedFile at hsrc3
      rw [hflip] at hsrc3
      rw [decrypt_parts A K hst b hb f2 u2 S w2 w1.salt _ _ (length_salt w1) hl2
        (by rw [length_flipBitAt, hl1]; exact hlen) hsrc3 hcr2
        (by rw [length_flipBitAt, hl1]; exact hf2)]
      rw [if_pos ((hr A.ctx_new A.ctx_new _ _ _ P (i - 48) j).1 hlt)]
    · have hsrc3 := hsrc2
      unfold sealedFile at hsrc3
      rw [hflip] at hsrc3
      rw [decrypt_parts A K hst b hb f2 u2 S w2 w1.salt _ _ (length_salt w1)
        (by rw [length_flipBitAt]; exact hl2)
        (by rw [hl1]; exact hlen) hsrc3 hcr2 (by rw [hl1]; exact hf2)]
      rw [if_pos ((hr A.ctx_new A.ctx_new _ _ _ P (i - 48 - _) j).2 (by rw [← hl2]; exact hlt))]

/-- Witness for C2 with the stand-in primitives: bit 3 of ciphertext byte 50
and bit 0 of the last tag byte. -/
theorem tampering_detected_witness :
    ∃ E : List Byte,
      observe (FileCrypt.encrypt toyAead toyKdf 4 6 (FileCrypt.new toyAead zeroUninit [1, 2])
        (toyWorld [10, 20, 30, 40, 50])) = some (Outcome.ok, E) ∧
      E.length = 48 + 5 + 16 ∧
      observe (FileCrypt.decrypt toyAead toyKdf 4 6 (FileCrypt.new toyAead zeroUninit [1, 2])
        (toyWorld (flipBitAt E 50 3))) = some (Outcome.threw Error.tag_mismatch, []) ∧
      observe (FileCrypt.decrypt toyAead toyKdf 4 6 (FileCrypt.new toyAead zeroUninit [1, 2])
        (toyWorld (flipBitAt E 68 0))) = some (Outcome.threw Error.tag_mismatch, []) :=
  (tampering_detected toyAead toyKdf toyAead_streaming toyAead_sized toyAead_rejectsBitFlips
    4 (by decide) zeroUninit zeroUninit [1, 2] [10, 20, 30, 40, 50]
    (toyWorld [10, 20, 30, 40, 50]) 6 6 rfl rfl (by decide) (by decide) (by decide)).imp
    fun E h => ⟨h.1, h.2.1,
      h.2.2 50 3 (toyWorld (flipBitAt E 50 3)) (by decide) (by rw [h.2.1]; decide) rfl rfl,
      h.2.2 68 0 (toyWorld (flipBitAt E 68 0)) (by decide) (by rw [h.2.1]; decide) rfl rfl⟩

/-- No key derivation keeps all passphrases apart: the nonce has 16 bytes,
so for every salt two different passphrases give the same nonce. -/
theorem nonce_collision_exists (K : Kdf) (salt : List Byte) :
    ∃ S S2 : List Byte, S ≠ S2 ∧ nonceOf K S salt = nonceOf K S2 salt := by
  let f : List Byte → Mathlib.Vector Byte 16 :=
    fun S => ⟨nonceOf K S salt, length_nonceOf K S salt⟩
  obtain ⟨S, S2, hne, heq⟩ := Finite.exists_ne_map_eq_of_infinite f
  exact ⟨S, S2, hne, congrArg Subtype.val heq⟩

theorem encrypt_fresh_header (A : Aead) (K : Kdf) (b : Nat) (hb : 0 < b) (fuel : Nat)
    (u : Uninit) (S P : List Byte) (w : World) (hsrc : w.src = some P)
    (hcr : w.dst_creatable = true) (hfuel : P.length < fuel) :
    ∃ E rest : List Byte,
      observe (FileCrypt.encrypt A K b fuel (FileCrypt.new A u S) w) = some (Outcome.ok, E) ∧
      E = w.salt ++ nonceOf K S w.salt ++ rest := by
  obtain ⟨t, out, _, hrun⟩ := encrypt_fresh A K b hb fuel u S P w hsrc hcr hfuel
  exact ⟨_, out ++ (A.encrypt_final t).2 ++
    arrayStore 16 (FileCrypt.new A u S).tag (A.get_tag (A.encrypt_final t).1), hrun,
    by simp only [List.append_assoc]⟩

theorem header_parts (s n rest : List Byte) (hs : s.length = 32) (hn : n.length = 16) :
    48 ≤ (s ++ n ++ rest).length ∧ (s ++ n ++ rest).take 32 = s ∧
      ((s ++ n ++ rest).drop 32).take 16 = n := by
  refine ⟨by simp only [List.length_append, hs, hn]; omega, ?_, ?_⟩
  · rw [List.append_assoc, ← hs]; exact List.take_left _ _
  · have h32 : (s ++ (n ++ rest)).drop 32 = n ++ rest := by rw [← hs]; exact List.drop_left _ _
    rw [List.append_assoc, h32, ← hn]; exact List.take_left _ _

/-- On a fresh object and a source that starts with a 32 byte salt and 16
bytes that are not the nonce derived from passphrase and salt, `decrypt()`
throws the passphrase mismatch; the destination is empty and the cipher
context is the one the constructor allocated. -/
theorem decrypt_nonce_differs (A : Aead) (K : Kdf) (b f : Nat) (u : Uninit)
    (S : List Byte) (w : World) (s n rest : List Byte) (hs : s.length = 32)
    (hn : n.length = 16) (hsrc : w.src = some (s ++ n ++ rest))
    (hcr : w.dst_creatable = true) (hne : n ≠ nonceOf K S s) :
    ∃ c2 w2, FileCrypt.decrypt A K b f (FileCrypt.new A u S) w =
        some (Outcome.threw Error.passphrase_mismatch, c2, w2) ∧
      w2.dst = [] ∧ c2.ctx = A.ctx_new := by
  obtain ⟨h1, h2, h3⟩ := header_parts s n rest hs hn
  rw [decrypt_header A K b f (FileCrypt.new A u S) w _ rfl rfl hsrc hcr h1, h2, h3,
    if_neg (show ¬ n = (Pbkdf2.new.derive K (FileCrypt.new A u S).passphrase s).2 from hne)]
  exact ⟨_, _, rfl, rfl, rfl⟩

/-- C3 as the code has it (passphrase rejection): for a file produced by
`encrypt()` with passphrase `S` and a passphrase `S2` whose derived nonce for
the file's salt differs from that of `S`, `decrypt()` with `S2` throws the
passphrase mismatch for every fuel, the destination is empty (no plaintext
byte was written) and the cipher context is still the one the constructor
allocated (no AEAD operation was performed). -/
theorem wrong_passphrase_rejected (A : Aead) (K : Kdf) (b : Nat) (hb : 0 < b)
    (u1 u2 : Uninit) (S S2 P : List Byte) (w1 : World) (f1 f2 : Nat)
    (hsrc1 : w1.src = some P) (hcr1 : w1.dst_creatable = true) (hf1 : P.length < f1)
    (hne : nonceOf K S2 w1.salt ≠ nonceOf K S w1.salt) :
    ∃ E : List Byte,
      observe (FileCrypt.encrypt A K b f1 (FileCrypt.new A u1 S) w1) = some (Outcome.ok, E) ∧
      ∀ w2 : World, w2.src = some E → w2.dst_creatable = true →
        ∃ c3 w3, FileCrypt.decrypt A K b f2 (FileCrypt.new A u2 S2) w2 =
            some (Outcome.threw Error.passphrase_mismatch, c3, w3) ∧
          w3.dst = [] ∧ c3.ctx = A.ctx_new := by
  obtain ⟨E, rest, hrun, hE⟩ := encrypt_fresh_header A K b hb f1 u1 S P w1 hsrc1 hcr1 hf1
  refine ⟨E, hrun, ?_⟩
  intro w2 hsrc2 hcr2
  rw [hE] at hsrc2
  exact decrypt_nonce_differs A K b f2 u2 S2 w2 _ _ rest (length_salt w1)
    (length_nonceOf K S w1.salt) hsrc2 hcr2 (Ne.symm hne)

/-- Witness for the amended C3 with the stand-in primitives: passphrases
`[1, 2]` and `[1, 3]`. -/
theorem wrong_passphrase_rejected_witness :
    ∃ E : List Byte,
      observe (FileCrypt.encrypt toyAead toyKdf 4 6 (FileCrypt.new toyAead zeroUninit [1, 2])
        (toyWorld [10, 20, 30, 40, 50])) = some (Outcome.ok, E) ∧
      observe (FileCrypt.decrypt toyAead toyKdf 4 6 (FileCrypt.new toyAead zeroUninit [1, 3])
        (toyWorld E)) = some (Outcome.threw Error.passphrase_mismatch, []) :=
  (wrong_passphrase_rejected toyAead toyKdf 4 (by decide) zeroUninit zeroUninit [1, 2] [1, 3]
    [10, 20, 30, 40, 50] (toyWorld [10, 20, 30, 40, 50]) 6 6 rfl rfl (by decide)
    (by decide)).imp
    fun E h => ⟨h.1,
      match h.2 (toyWorld E) rfl rfl with
      | ⟨_, _, hd, hdst, _⟩ => by rw [hd]; simp only [observe, Option.map_some', hdst]⟩

/-- C3 as stated fails: with the stand-in primitives the passphrases `[1, 2]`
and `[1, 2, 0]` are different, yet the file encrypted with the first is
decrypted with the second without any error. -/
theorem wrong_passphrase_accepted :
    ([1, 2] : List Byte) ≠ [1, 2, 0] ∧
    observe (FileCrypt.encrypt toyAead toyKdf 4 6 (FileCrypt.new toyAead zeroUninit [1, 2])
        (toyWorld [10, 20, 30, 40, 50])) = some (Outcome.ok, toyFile) ∧
    observe (FileCrypt.decrypt toyAead toyKdf 4 6 (FileCrypt.new toyAead zeroUninit [1, 2, 0])
        (toyWorld toyFile)) = some (Outcome.ok, [10, 20, 30, 40, 50]) := by
  decide

theorem close_outcome {Ctx : Type} (c : FileCrypt Ctx) (w : World) :
    (c.close w).1 ≠ Outcome.threw Error.passphrase_mismatch := by
  unfold FileCrypt.close
  by_cases hv : c.verified = 0
  · by_cases hcr : w.dst_creatable = true
    · simp only [hv, hcr, if_true]
      intro h
      cases h
    · simp only [hv, hcr, if_true, if_false]
      intro h
      cases h
  · simp only [hv, if_false]
    intro h
    cases h

/-- With a matching nonce `decrypt()` goes on to the cipher: its result is
that of `process_decrypt` followed by `close`, never the passphrase mismatch. -/
theorem decrypt_nonce_agrees (A : Aead) (K : Kdf) (b f : Nat) (u : Uninit)
    (S : List Byte) (w : World) (F : List Byte) (hsrc : w.src = some F)
    (hcr : w.dst_creatable = true) (hF : 48 ≤ F.length)
    (hn : (F.drop 32).take 16 = nonceOf K S (F.take 32)) :
    FileCrypt.decrypt A K b f (FileCrypt.new A u S) w =
        (FileCrypt.process_decrypt A b f
          (FileCrypt.create_dec_ctx A (FileCrypt.afterHeader K (FileCrypt.new A u S) F))
          { w with dst := [] }).map (fun r => r.1.close r.2) ∧
      ∀ c2 w2, FileCrypt.decrypt A K b f (FileCrypt.new A u S) w ≠
        some (Outcome.threw Error.passphrase_mismatch, c2, w2) := by
  have h1 : FileCrypt.decrypt A K b f (FileCrypt.new A u S) w =
      (FileCrypt.process_decrypt A b f
        (FileCrypt.create_dec_ctx A (FileCrypt.afterHeader K (FileCrypt.new A u S) F))
        { w with dst := [] }).map (fun r => r.1.close r.2) := by
    rw [decrypt_header A K b f (FileCrypt.new A u S) w F rfl rfl hsrc hcr hF,
      if_pos (show (F.drop 32).take 16 =
        (Pbkdf2.new.derive K (FileCrypt.new A u S).passphrase (F.take 32)).2 from hn)]
    generalize FileCrypt.process_decrypt A b f _ _ = r
    cases r with
    | none => rfl
    | some x => rfl
  refine ⟨h1, ?_⟩
  intro c2 w2
  rw [h1]
  generalize FileCrypt.process_decrypt A b f _ _ = r
  cases r with
  | none => intro h; cases h
  | some x =>
    intro h
    have h2 : (x.1.close x.2).1 = Outcome.threw Error.passphrase_mismatch := by
      have h3 : x.1.close x.2 = (Outcome.threw Error.passphrase_mismatch, c2, w2) :=
        Option.some.inj h
      rw [h3]
    exact close_outcome _ _ h2

theorem set_ne_of_get (l : List Byte) (i : Nat) (x : Byte) (hi : i < l.length)
    (hx : l[i]? ≠ some x) : l.set i x ≠ l := by
  intro h
  apply hx
  rw [← h]
  exact List.getElem?_set_self (by simpa using hi)

/-- Whatever the primitives are, some pair of different passphrases escapes
the nonce pre-check: the file encrypted with one is not rejected with the
passphrase mismatch when decrypted with the other. -/
theorem passphrase_rejection_has_exceptions (A : Aead) (K : Kdf) (b : Nat) (hb : 0 < b)
    (u1 u2 : Uninit) (P : List Byte) (w1 : World) (f1 f2 : Nat)
    (hsrc1 : w1.src = some P) (hcr1 : w1.dst_creatable = true) (hf1 : P.length < f1) :
    ∃ S S2 : List Byte, S ≠ S2 ∧ ∃ E : List Byte,
      observe (FileCrypt.encrypt A K b f1 (FileCrypt.new A u1 S) w1) = some (Outcome.ok, E) ∧
      ∀ w2 : World, w2.src = some E → w2.dst_creatable = true →
        ∀ c3 w3, FileCrypt.decrypt A K b f2 (FileCrypt.new A u2 S2) w2 ≠
          some (Outcome.threw Error.passphrase_mismatch, c3, w3) := by
  obtain ⟨S, S2, hne, heq⟩ := nonce_collision_exists K w1.salt
  obtain ⟨E, rest, hrun, hE⟩ := encrypt_fresh_header A K b hb f1 u1 S P w1 hsrc1 hcr1 hf1
  refine ⟨S, S2, hne, E, hrun, ?_⟩
  intro w2 hsrc2 hcr2
  obtain ⟨h1, h2, h3⟩ := header_parts w1.salt (nonceOf K S w1.salt) rest (length_salt w1)
    (length_nonceOf K S w1.salt)
  rw [← hE] at h1 h2 h3
  exact (decrypt_nonce_agrees A K b f2 u2 S2 w2 E hsrc2 hcr2 h1
    (by rw [h2, h3]; exact heq)).2

/-- C8 (nonce pre-check): on a fresh object and a source of at least 48
bytes, `decrypt()` throws the passphrase mismatch if and only if the nonce
derived from the passphrase and bytes 0..31 differs from bytes 32..47; when
they agree the call goes on to `process_decrypt` with the cipher initialised
with the derived key and the stored nonce; and altering any byte of the
stored nonce of a file produced by `encrypt()` makes `decrypt()` with the
right passphrase throw the passphrase mismatch, leaving an empty
destination. -/
theorem nonce_precheck (A : Aead) (K : Kdf) (b : Nat) (hb : 0 < b) (f : Nat) (u : Uninit)
    (S : List Byte) :
    (∀ (w : World) (F : List Byte), w.src = some F → w.dst_creatable = true →
      48 ≤ F.length →
      ((∃ c2 w2, FileCrypt.decrypt A K b f (FileCrypt.new A u S) w =
          some (Outcome.threw Error.passphrase_mismatch, c2, w2)) ↔
        (F.drop 32).take 16 ≠ nonceOf K S (F.take 32)) ∧
      ((F.drop 32).take 16 = nonceOf K S (F.take 32) →
        FileCrypt.decrypt A K b f (FileCrypt.new A u S) w =
          (FileCrypt.process_decrypt A b f
            (FileCrypt.create_dec_ctx A (FileCrypt.afterHeader K (FileCrypt.new A u S) F))
            { w with dst := [] }).map (fun r => r.1.close r.2) ∧
        (FileCrypt.create_dec_ctx A (FileCrypt.afterHeader K (FileCrypt.new A u S) F)).ctx =
          A.decrypt_init A.ctx_new (keyOf K S (F.take 32)) ((F.drop 32).take 16))) ∧
    (∀ (u1 : Uninit) (P : List Byte) (w1 w2 : World) (f1 : Nat) (E : List Byte) (i : Nat)
      (x : Byte), w1.src = some P → w1.dst_creatable = true → P.length < f1 →
      observe (FileCrypt.encrypt A K b f1 (FileCrypt.new A u1 S) w1) = some (Outcome.ok, E) →
      i < 16 → E[32 + i]? ≠ some x →
      w2.src = some (E.set (32 + i) x) → w2.dst_creatable = true →
      observe (FileCrypt.decrypt A K b f (FileCrypt.new A u S) w2) =
        some (Outcome.threw Error.passphrase_mismatch, [])) := by
  constructor
  · intro w F hsrc hcr hF
    constructor
    · constructor
      · rintro ⟨c2, w2, h⟩ heq
        exact (decrypt_nonce_agrees A K b f u S w F hsrc hcr hF heq).2 c2 w2 h
      · intro hne
        rw [decrypt_header A K b f (FileCrypt.new A u S) w F rfl rfl hsrc hcr hF,
          if_neg (show ¬ (F.drop 32).take 16 =
            (Pbkdf2.new.derive K (FileCrypt.new A u S).passphrase (F.take 32)).2 from hne)]
        exact ⟨_, _, rfl⟩
    · intro heq
      exact ⟨(decrypt_nonce_agrees A K b f u S w F hsrc hcr hF heq).1, rfl⟩
  · intro u1 P w1 w2 f1 E i x hsrc1 hcr1 hf1 hE hi hx hsrc2 hcr2
    obtain ⟨E2, rest, hrun, hE2⟩ := encrypt_fresh_header A K b hb f1 u1 S P w1 hsrc1 hcr1 hf1
    have hEE : E = E2 := by
      rw [hrun] at hE
      exact (congrArg Prod.snd (Option.some.inj hE)).symm
    have hs := length_salt w1
    have hn := length_nonceOf K S w1.salt
    have hset : E.set (32 + i) x =
        w1.salt ++ (nonceOf K S w1.salt).set i x ++ rest := by
      rw [hEE, hE2, List.set_append_left _ _ (by rw [List.length_append, hs, hn]; omega),
        List.set_append_right _ _ (by rw [hs]; omega), hs, Nat.add_sub_cancel_left]
    have hget : (nonceOf K S w1.salt)[i]? ≠ some x := by
      intro h
      apply hx
      rw [hEE, hE2, List.getElem?_append_left (by rw [List.length_append, hs, hn]; omega),
        List.getElem?_append_right (by rw [hs]; omega), hs, Nat.add_sub_cancel_left]
      exact h
    rw [hset] at hsrc2
    obtain ⟨c3, w3, hd, hdst, _⟩ := decrypt_nonce_differs A K b f u S w2 w1.salt
      ((nonceOf K S w1.salt).set i x) rest hs (by rw [List.length_set]; exact hn) hsrc2 hcr2
      (set_ne_of_get _ i x (by rw [hn]; exact hi) hget)
    rw [hd]
    simp only [observe, Option.map_some', hdst]

/-- Witness for C8 with the stand-in primitives: the encrypted file with
byte 40 (inside the stored nonce) replaced by 0. -/
theorem nonce_precheck_witness :
    observe (FileCrypt.decrypt toyAead toyKdf 4 6 (FileCrypt.new toyAead zeroUninit [1, 2])
        (toyWorld (toyFile.set (32 + 8) 0))) =
      some (Outcome.threw Error.passphrase_mismatch, []) :=
  (nonce_precheck toyAead toyKdf 4 (by decide) 6 zeroUninit [1, 2]).2 zeroUninit
    [10, 20, 30, 40, 50] (toyWorld [10, 20, 30, 40, 50]) (toyWorld (toyFile.set (32 + 8) 0)) 6
    toyFile 8 0 rfl rfl (by decide) (by decide) (by decide) (by decide) rfl rfl

/-- C9, the failing case: on a fresh object, a source of 48 to 63 bytes
whose stored nonce is the one derived from the passphrase and the stored salt
(an encrypted file cut off inside its tag, say), `decrypt()` does not return
for any amount of fuel: `msglen -= 64` wraps around and the loop keeps
asking an exhausted stream for more bytes. -/
theorem decrypt_truncated_never_returns (A : Aead) (K : Kdf) (b : Nat) (u : Uninit)
    (S : List Byte) (w : World) (F : List Byte) (fuel : Nat)
    (hsrc : w.src = some F) (hcr : w.dst_creatable = true)
    (hF : 48 ≤ F.length) (hF2 : F.length < 64)
    (hn : (F.drop 32).take 16 = nonceOf K S (F.take 32)) :
    FileCrypt.decrypt A K b fuel (FileCrypt.new A u S) w = none :=
  decrypt_short_diverges A K b fuel (FileCrypt.new A u S) w F rfl rfl hsrc hcr hF hF2 hn

/-- Witness for the failing case of C9 with the stand-in primitives: the
encrypted file cut to its first 60 bytes, with a large fuel. -/
theorem decrypt_truncated_never_returns_witness :
    (48 ≤ (toyFile.take 60).length ∧ (toyFile.take 60).length < 64) ∧
    FileCrypt.decrypt toyAead toyKdf 4 1000000 (FileCrypt.new toyAead zeroUninit [1, 2])
      (toyWorld (toyFile.take 60)) = none :=
  ⟨by decide,
    decrypt_truncated_never_returns toyAead toyKdf 4 zeroUninit [1, 2]
      (toyWorld (toyFile.take 60)) (toyFile.take 60) 1000000 rfl rfl (by decide) (by decide)
      (by decide)⟩

/-! ## Reusing an object -/

theorem write_world {Ctx : Type} (c : FileCrypt Ctx) (w : World) (d : List Byte) :
    (c.write w d).2.src = w.src ∧ (c.write w d).2.dst_creatable = w.dst_creatable := by
  unfold FileCrypt.write
  split <;> exact ⟨rfl, rfl⟩

theorem decrypt_loop_world (A : Aead) (b : Nat) : ∀ (fuel : Nat) (c c2 : FileCrypt A.Ctx)
    (w w2 : World), FileCrypt.decrypt_loop A b fuel c w = some (c2, w2) →
      w2.src = w.src ∧ w2.dst_creatable = w.dst_creatable := by
  intro fuel
  induction fuel with
  | zero => intro c c2 w w2 h; cases h
  | succ fuel ih =>
    intro c c2 w w2 h
    rw [FileCrypt.decrypt_loop] at h
    by_cases hm : 0 < c.msglen
    · rw [if_pos hm] at h
      obtain ⟨h1, h2⟩ := ih _ _ _ _ h
      exact ⟨h1.trans (write_world _ _ _).1, h2.trans (write_world _ _ _).2⟩
    · rw [if_neg hm] at h
      cases h
      exact ⟨rfl, rfl⟩

theorem process_decrypt_world (A : Aead) (b fuel : Nat) (c c2 : FileCrypt A.Ctx)
    (w w2 : World) (h : FileCrypt.process_decrypt A b fuel c w = some (c2, w2)) :
    w2.src = w.src ∧ w2.dst_creatable = w.dst_creatable := by
  simp only [FileCrypt.process_decrypt] at h
  split at h
  · cases h
  · rename_i c3 w3 hl
    obtain ⟨h1, h2⟩ := decrypt_loop_world A b fuel _ _ _ _ hl
    have h3 : _ = w2 := congrArg Prod.snd (Option.some.inj h)
    rw [← h3]
    exact ⟨(write_world _ _ _).1.trans h1, (write_world _ _ _).2.trans h2⟩

theorem open_facts {Ctx : Type} (c : FileCrypt Ctx) (w : World) :
    (c.open w).2.2.src = w.src ∧ (c.open w).2.2.dst_creatable = w.dst_creatable ∧
      (c.open w).1 ≠ Outcome.threw Error.tag_mismatch := by
  obtain ⟨msglen, pass, ⟨io, ig, ip⟩, ⟨oo, og⟩, salt, key, iv, tag, verified, ctx⟩ := c
  obtain ⟨src, dst, cr, rnd, n⟩ := w
  unfold FileCrypt.open
  cases io <;> cases oo <;> cases cr <;> cases src <;> cases ig <;> cases og <;>
    simp [get_file_size]

theorem init_decrypt_outcome {Ctx : Type} (K : Kdf) (c : FileCrypt Ctx) (w : World) :
    (c.init_decrypt K w).1 ≠ Outcome.threw Error.tag_mismatch := by
  unfold FileCrypt.init_decrypt
  simp only []
  split <;> (intro h; cases h)

theorem close_facts {Ctx : Type} (c : FileCrypt Ctx) (w : World) :
    (c.close w).2.1.ifs.is_open = false ∧ (c.close w).2.1.ofs.is_open = false ∧
      (c.close w).2.1.verified = c.verified ∧ (c.close w).2.2.src = w.src ∧
      (c.close w).2.2.dst_creatable = w.dst_creatable ∧
      ((c.close w).1 = Outcome.threw Error.tag_mismatch → c.verified = 0) := by
  unfold FileCrypt.close
  by_cases hv : c.verified = 0
  · by_cases hcr : w.dst_creatable = true
    · rw [if_pos hv, if_pos hcr]
      exact ⟨rfl, rfl, rfl, rfl, rfl, fun _ => hv⟩
    · rw [if_pos hv, if_neg hcr]
      exact ⟨rfl, rfl, rfl, rfl, rfl, fun _ => hv⟩
  · rw [if_neg hv]
    exact ⟨rfl, rfl, rfl, rfl, rfl, fun h => by cases h⟩

/-- The object and the files after a `decrypt()` that threw the tag mismatch:
both streams are closed, the source is untouched, and `verified` is 0. -/
theorem decrypt_tag_mismatch_state (A : Aead) (K : Kdf) (b f : Nat)
    (c c1 : FileCrypt A.Ctx) (w w1 : World)
    (h : FileCrypt.decrypt A K b f c w = some (Outcome.threw Error.tag_mismatch, c1, w1)) :
    c1.verified = 0 ∧ c1.ifs.is_open = false ∧ c1.ofs.is_open = false ∧
      w1.src = w.src ∧ w1.dst_creatable = w.dst_creatable := by
  unfold FileCrypt.decrypt at h
  obtain ⟨ho1, ho2, ho3⟩ := open_facts c w
  generalize c.open w = r at h ho1 ho2 ho3
  obtain ⟨o, c2, w2⟩ := r
  cases o with
  | threw e =>
    have h1 := congrArg Prod.fst (Option.some.inj h)
    exact absurd h1 ho3
  | ok =>
    have hi := init_decrypt_outcome K c2 w2
    change (match c2.init_decrypt K w2 with
      | (Outcome.threw e, c3) => some (Outcome.threw e, c3, w2)
      | (Outcome.ok, c3) =>
        match FileCrypt.process_decrypt A b f (FileCrypt.create_dec_ctx A c3) w2 with
        | none => none
        | some (c4, w4) => some (c4.close w4)) = _ at h
    generalize c2.init_decrypt K w2 = r2 at h hi
    obtain ⟨o2, c3⟩ := r2
    cases o2 with
    | threw e =>
      have h1 := congrArg Prod.fst (Option.some.inj h)
      exact absurd h1 hi
    | ok =>
      change (match FileCrypt.process_decrypt A b f (FileCrypt.create_dec_ctx A c3) w2 with
        | none => none
        | some (c4, w4) => some (c4.close w4)) = _ at h
      generalize hp : FileCrypt.process_decrypt A b f (FileCrypt.create_dec_ctx A c3) w2 = r3 at h
      cases r3 with
      | none => cases h
      | some x =>
        obtain ⟨c4, w4⟩ := x
        obtain ⟨hw1, hw2⟩ := process_decrypt_world A b f _ _ _ _ hp
        have h2 : c4.close w4 = (Outcome.threw Error.tag_mismatch, c1, w1) := Option.some.inj h
        obtain ⟨k1, k2, k3, k4, k5, k6⟩ := close_facts c4 w4
        rw [h2] at k1 k2 k3 k4 k5 k6
        exact ⟨k3.trans (k6 rfl), k1, k2, (k4.trans hw1).trans ho1, (k5.trans hw2).trans ho2⟩

/-- C10, the failing case: after a `decrypt()` on a fresh object threw the
tag mismatch, `encrypt()` on the same object and the same files does all its
work and then throws the tag mismatch too, leaving an empty destination,
because `verified` is still 0 when `close()` looks at it; the same call on an
object copy-constructed from the used one returns normally and leaves a file
of at least 48 bytes. -/
theorem encrypt_after_tag_mismatch (A : Aead) (K : Kdf) (b : Nat) (hb : 0 < b)
    (u u2 : Uninit) (S : List Byte) (w : World) (F : List Byte) (f1 f2 : Nat)
    (hsrc : w.src = some F) (hcr : w.dst_creatable = true) (hf2 : F.length < f2)
    (h : (FileCrypt.decrypt A K b f1 (FileCrypt.new A u S) w).map Prod.fst =
      some (Outcome.threw Error.tag_mismatch)) :
    ∃ c1 w1,
      FileCrypt.decrypt A K b f1 (FileCrypt.new A u S) w =
        some (Outcome.threw Error.tag_mismatch, c1, w1) ∧
      observe (FileCrypt.encrypt A K b f2 c1 w1) =
        some (Outcome.threw Error.tag_mismatch, []) ∧
      ∃ E : List Byte,
        observe (FileCrypt.encrypt A K b f2 (FileCrypt.copy A u2 c1) w1) =
          some (Outcome.ok, E) ∧ 48 ≤ E.length := by
  cases hd : FileCrypt.decrypt A K b f1 (FileCrypt.new A u S) w with
  | none => rw [hd] at h; cases h
  | some r =>
    obtain ⟨o, c1, w1⟩ := r
    rw [hd] at h
    have ho : o = Outcome.threw Error.tag_mismatch := Option.some.inj h
    subst ho
    obtain ⟨hv, hi, hopn, hs1, hc1⟩ := decrypt_tag_mismatch_state A K b f1 _ c1 w w1 hd
    have hsrc1 : w1.src = some F := hs1.trans hsrc
    have hcr1 : w1.dst_creatable = true := hc1.trans hcr
    refine ⟨c1, w1, rfl, ?_, ?_⟩
    · obtain ⟨t, out, _, hrun⟩ := encrypt_spec A K b hb f2 c1 w1 F hi hopn hsrc1 hcr1 hf2
      rw [hrun]
      simp only [observe, Option.map_some', hv, if_true]
    · obtain ⟨E, rest, hrun, hE⟩ := encrypt_fresh_header A K b hb f2 u2 c1.passphrase F w1
        hsrc1 hcr1 hf2
      refine ⟨E, hrun, ?_⟩
      rw [hE]
      simp only [List.length_append, length_salt, length_nonceOf]
      omega

/-- Witness for the failing case of C10 with the stand-in primitives: the
encrypted file with bit 3 of byte 50 flipped is decrypted, then the same
object is asked to encrypt. -/
theorem encrypt_after_tag_mismatch_witness :
    ∃ c1 w1,
      FileCrypt.decrypt toyAead toyKdf 4 6 (FileCrypt.new toyAead zeroUninit [1, 2])
          (toyWorld (flipBitAt toyFile 50 3)) =
        some (Outcome.threw Error.tag_mismatch, c1, w1) ∧
      observe (FileCrypt.encrypt toyAead toyKdf 4 70 c1 w1) =
        some (Outcome.threw Error.tag_mismatch, []) ∧
      ∃ E : List Byte,
        observe (FileCrypt.encrypt toyAead toyKdf 4 70 (FileCrypt.copy toyAead zeroUninit c1) w1) =
          some (Outcome.ok, E) ∧ 48 ≤ E.length :=
  encrypt_after_tag_mismatch toyAead toyKdf 4 (by decide) zeroUninit zeroUninit [1, 2]
    (toyWorld (flipBitAt toyFile 50 3)) (flipBitAt toyFile 50 3) 6 70 rfl rfl (by decide)
    (by decide)

end filecrypt
